import Mathlib

/-!
Verification of the chess-engine core of the MlChess repository.

The definitions below are a shallow embedding of the Rust sources
(`crates/chess_core/src/{types,bitboard,attacks,board,movegen,perft,uci}.rs`
and `crates/classical_engine/src/{search,eval}.rs`).  Machine integers are
embedded as `Nat` with explicit masking where the Rust code relies on the
width (u64 bitboards, the u16 packed move).  Rust panics (`expect`, `unwrap`,
`panic!`, asserts) are embedded as `Option`/failure results.
-/

set_option maxHeartbeats 1000000

namespace Chess

/-! ### Machine-integer helpers

A Rust `u64` is embedded as a `Nat` that is kept `< 2 ^ 64` by construction;
`!x` on u64 becomes xor with the all-ones mask, and left shifts are reduced
mod `2 ^ 64` where the Rust shift would discard high bits. -/

/-- All-ones 64-bit mask (`u64::MAX`). -/
def mask64 : Nat := 2 ^ 64 - 1

/-- All-ones 16-bit mask (`u16::MAX`). -/
def mask16 : Nat := 2 ^ 16 - 1

/-- Bitwise complement on u64 (`!x` in Rust). -/
def bnot64 (x : Nat) : Nat := x ^^^ mask64

/-- Left shift on u64: high bits that leave the word are discarded. -/
def shl64 (x k : Nat) : Nat := (x <<< k) % 2 ^ 64

/-! ### `types.rs`: colors, piece kinds, pieces -/

/-- `Color` from `types.rs`. -/
inductive Color where
  | White
  | Black
deriving DecidableEq, Fintype

/-- `Color::other`. -/
def Color.other : Color → Color
  | .White => .Black
  | .Black => .White

/-- `Color::idx`. -/
def Color.idx : Color → Nat
  | .White => 0
  | .Black => 1

/-- `PieceKind` from `types.rs`. -/
inductive PieceKind where
  | Pawn
  | Knight
  | Bishop
  | Rook
  | Queen
  | King
deriving DecidableEq, Fintype

/-- `PieceKind::idx`. -/
def PieceKind.idx : PieceKind → Nat
  | .Pawn => 0
  | .Knight => 1
  | .Bishop => 2
  | .Rook => 3
  | .Queen => 4
  | .King => 5

/-- `Piece` from `types.rs`: a color and a kind. -/
structure Piece where
  color : Color
  kind : PieceKind
deriving DecidableEq

/-! ### `types.rs`: the packed 16-bit move

`Move` is a `u16` with from-square in bits 0-5, to-square in bits 6-11,
promotion code in bits 12-14 (`PROMO_MASK = 0x07 << 12`), the en-passant
flag in bit 15 (`EP_FLAG = 1 << 15`) and the castle flag in bit 14
(`CASTLE_FLAG = 1 << 14`).  We embed it as a `Nat` holding the u16 value.
`from`/`to` are Lean keywords, so the accessors are named `fromSq`/`toSq`. -/

namespace Move

/-- `Move::new(from, to)`. -/
def new (f t : Nat) : Nat := f ||| (t <<< 6)

/-- `Move::from()`: bits 0-5. -/
def fromSq (m : Nat) : Nat := m &&& 0x3F

/-- `Move::to()`: bits 6-11. -/
def toSq (m : Nat) : Nat := (m &&& 0xFC0) >>> 6

/-- `Move::promo()`: decode bits 12-14. -/
def promo (m : Nat) : Option PieceKind :=
  match (m >>> 12) &&& 0x07 with
  | 1 => some .Knight
  | 2 => some .Bishop
  | 3 => some .Rook
  | 4 => some .Queen
  | _ => none

/-- The promotion code stored by `Move::set_promo`. -/
def promoCode : Option PieceKind → Nat
  | none => 0
  | some .Knight => 1
  | some .Bishop => 2
  | some .Rook => 3
  | some .Queen => 4
  | some _ => 0

/-- `Move::set_promo`: clear bits 12-14, then or in the new code. -/
def set_promo (m : Nat) (p : Option PieceKind) : Nat :=
  (m &&& (mask16 ^^^ 0x7000)) ||| (promoCode p <<< 12)

/-- `Move::with_promo(from, to, promo)`. -/
def with_promo (f t : Nat) (p : PieceKind) : Nat :=
  set_promo (new f t) (some p)

/-- `Move::is_en_passant()`: bit 15. -/
def is_en_passant (m : Nat) : Bool := m &&& 0x8000 ≠ 0

/-- `Move::set_en_passant`. -/
def set_en_passant (m : Nat) (value : Bool) : Nat :=
  if value then m ||| 0x8000 else m &&& (mask16 ^^^ 0x8000)

/-- `Move::is_castle()`: bit 14. -/
def is_castle (m : Nat) : Bool := m &&& 0x4000 ≠ 0

/-- `Move::set_castle`. -/
def set_castle (m : Nat) (value : Bool) : Nat :=
  if value then m ||| 0x4000 else m &&& (mask16 ^^^ 0x4000)

end Move

/-! ### `types.rs`: square helpers

`file_of`/`rank_of` return `i8` in Rust; we use `Int` so that the signed
arithmetic in the mailbox attack walker is faithful. -/

/-- `file_of(sq)`. -/
def file_of (sq : Nat) : Int := (sq % 8 : Nat)

/-- `rank_of(sq)`. -/
def rank_of (sq : Nat) : Int := (sq / 8 : Nat)

/-- `sq(file, rank)`: the square for on-board coordinates, else `None`. -/
def sqOf (file rank : Int) : Option Nat :=
  if 0 ≤ file ∧ file < 8 ∧ 0 ≤ rank ∧ rank < 8 then
    some ((rank * 8 + file).toNat)
  else
    none

/-- `coord_to_sq`: parse a 2-character algebraic coordinate.  The Rust code
checks the byte length is 2 and the two bytes are in `a..=h` / `1..=8`; on
all inputs this agrees with the character-level check used here (multi-byte
UTF-8 units are out of both ranges). -/
def coord_to_sq (c : String) : Option Nat :=
  match c.data with
  | [f, r] =>
    if 'a' ≤ f ∧ f ≤ 'h' ∧ '1' ≤ r ∧ r ≤ '8' then
      some ((r.toNat - '1'.toNat) * 8 + (f.toNat - 'a'.toNat))
    else
      none
  | _ => none

/-! ### `bitboard.rs`

A bitboard is a u64 (here: a `Nat` kept below `2 ^ 64`); bit `i` set means
square `i` is in the set (a1 = 0, h8 = 63). -/

namespace Bitboard

def EMPTY : Nat := 0
def FILE_A : Nat := 0x0101010101010101
def FILE_H : Nat := 0x8080808080808080
def RANK_1 : Nat := 0x00000000000000FF
def RANK_2 : Nat := 0x000000000000FF00
def RANK_4 : Nat := 0x00000000FF000000
def RANK_5 : Nat := 0x000000FF00000000
def RANK_7 : Nat := 0x00FF000000000000
def RANK_8 : Nat := 0xFF00000000000000
def NOT_FILE_A : Nat := bnot64 FILE_A
def NOT_FILE_H : Nat := bnot64 FILE_H
def NOT_FILE_AB : Nat := bnot64 0x0303030303030303
def NOT_FILE_GH : Nat := bnot64 (0x8080808080808080 ||| 0x4040404040404040)

/-- `Bitboard::from_square`. -/
def from_square (sq : Nat) : Nat := 1 <<< sq

/-- `Bitboard::contains`. -/
def contains (bb sq : Nat) : Bool := bb &&& (1 <<< sq) ≠ 0

/-- `Bitboard::lsb`: index of the least significant set bit.  The Rust code
uses `trailing_zeros`; for a nonzero u64 this is the least `i < 64` with bit
`i` set, which is what the search below computes. -/
def lsb (bb : Nat) : Option Nat := (List.range 64).find? bb.testBit

/-- Index of the most significant set bit of a nonzero u64
(`63 - leading_zeros` in `attacks.rs`). -/
def msb (bb : Nat) : Option Nat := (List.range 64).reverse.find? bb.testBit

/-- The squares of a bitboard in the order `pop_lsb` yields them
(increasing index). -/
def toList (bb : Nat) : List Nat := (List.range 64).filter bb.testBit

/-- `Bitboard::north`. -/
def north (bb : Nat) : Nat := shl64 bb 8

/-- `Bitboard::south`. -/
def south (bb : Nat) : Nat := bb >>> 8

/-- `Bitboard::east`. -/
def east (bb : Nat) : Nat := shl64 bb 1 &&& NOT_FILE_A

/-- `Bitboard::west`. -/
def west (bb : Nat) : Nat := (bb >>> 1) &&& NOT_FILE_H

/-- `Bitboard::north_east`. -/
def north_east (bb : Nat) : Nat := shl64 bb 9 &&& NOT_FILE_A

/-- `Bitboard::north_west`. -/
def north_west (bb : Nat) : Nat := shl64 bb 7 &&& NOT_FILE_H

/-- `Bitboard::south_east`. -/
def south_east (bb : Nat) : Nat := (bb >>> 7) &&& NOT_FILE_A

/-- `Bitboard::south_west`. -/
def south_west (bb : Nat) : Nat := (bb >>> 9) &&& NOT_FILE_H

end Bitboard

/-! ### `attacks.rs`: pre-computed attack tables

The constant tables are embedded as functions of the square; each definition
is the body of the corresponding table-building loop. -/

/-- `KNIGHT_ATTACKS[sq]`: all 8 L-shaped jumps with file masking. -/
def knight_attacks (sq : Nat) : Nat :=
  let bb := Bitboard.from_square sq
  (shl64 bb 17 &&& Bitboard.NOT_FILE_A) |||
  (shl64 bb 15 &&& Bitboard.NOT_FILE_H) |||
  (shl64 bb 10 &&& Bitboard.NOT_FILE_AB) |||
  (shl64 bb 6 &&& Bitboard.NOT_FILE_GH) |||
  ((bb >>> 6) &&& Bitboard.NOT_FILE_AB) |||
  ((bb >>> 10) &&& Bitboard.NOT_FILE_GH) |||
  ((bb >>> 15) &&& Bitboard.NOT_FILE_A) |||
  ((bb >>> 17) &&& Bitboard.NOT_FILE_H)

/-- `KING_ATTACKS[sq]`: all 8 one-step directions. -/
def king_attacks (sq : Nat) : Nat :=
  let bb := Bitboard.from_square sq
  shl64 bb 8 ||| (bb >>> 8) |||
  (shl64 bb 1 &&& Bitboard.NOT_FILE_A) |||
  ((bb >>> 1) &&& Bitboard.NOT_FILE_H) |||
  (shl64 bb 9 &&& Bitboard.NOT_FILE_A) |||
  (shl64 bb 7 &&& Bitboard.NOT_FILE_H) |||
  ((bb >>> 7) &&& Bitboard.NOT_FILE_A) |||
  ((bb >>> 9) &&& Bitboard.NOT_FILE_H)

/-- `WHITE_PAWN_ATTACKS[sq]`. -/
def white_pawn_attacks (sq : Nat) : Nat :=
  let bb := Bitboard.from_square sq
  (shl64 bb 9 &&& Bitboard.NOT_FILE_A) ||| (shl64 bb 7 &&& Bitboard.NOT_FILE_H)

/-- `BLACK_PAWN_ATTACKS[sq]`. -/
def black_pawn_attacks (sq : Nat) : Nat :=
  let bb := Bitboard.from_square sq
  ((bb >>> 7) &&& Bitboard.NOT_FILE_A) ||| ((bb >>> 9) &&& Bitboard.NOT_FILE_H)

/-- `pawn_attacks(sq, is_white)`. -/
def pawn_attacks (sq : Nat) (is_white : Bool) : Nat :=
  if is_white then white_pawn_attacks sq else black_pawn_attacks sq

/-- A ray running toward higher square indices: bits `sq + i * step` for
`i = 1, ..., len` (the body of the positive-direction table loops). -/
def rayPos (step len sq : Nat) : Nat :=
  (List.range' 1 len).foldl (fun bb i => bb ||| (1 <<< (sq + i * step))) 0

/-- A ray running toward lower square indices: bits `sq - i * step` for
`i = 1, ..., len` (the body of the negative-direction table loops). -/
def rayNeg (step len sq : Nat) : Nat :=
  (List.range' 1 len).foldl (fun bb i => bb ||| (1 <<< (sq - i * step))) 0

/-- `RAYS[dir][sq]`; directions 0=N, 1=NE, 2=E, 3=SE, 4=S, 5=SW, 6=W, 7=NW.
Each table loop walks from `sq` in its direction until the board edge; the
number of steps available is determined by the rank/file of `sq`. -/
def rays (dir sq : Nat) : Nat :=
  let file := sq % 8
  let rank := sq / 8
  match dir with
  | 0 => rayPos 8 (7 - rank) sq
  | 1 => rayPos 9 (min (7 - rank) (7 - file)) sq
  | 2 => rayPos 1 (7 - file) sq
  | 3 => rayNeg 7 (min rank (7 - file)) sq
  | 4 => rayNeg 8 rank sq
  | 5 => rayNeg 9 (min rank file) sq
  | 6 => rayNeg 1 file sq
  | 7 => rayPos 7 (min (7 - rank) file) sq
  | _ => 0

/-- `bishop_attacks(sq, occupied)`: classical ray lookup; positive rays
(NE=1, NW=7) take the LSB of the blockers, negative rays (SE=3, SW=5) the
MSB, and the ray beyond the first blocker is masked off. -/
def bishop_attacks (sq occupied : Nat) : Nat :=
  let posDir := fun (attacks dir : Nat) =>
    let ray := rays dir sq
    let blockers := ray &&& occupied
    match Bitboard.lsb blockers with
    | some b => attacks ||| (ray &&& bnot64 (rays dir b))
    | none => attacks ||| ray
  let negDir := fun (attacks dir : Nat) =>
    let ray := rays dir sq
    let blockers := ray &&& occupied
    if blockers ≠ 0 then
      match Bitboard.msb blockers with
      | some b => attacks ||| (ray &&& bnot64 (rays dir b))
      | none => attacks ||| ray
    else attacks ||| ray
  negDir (negDir (posDir (posDir 0 1) 7) 3) 5

/-- `rook_attacks(sq, occupied)`: positive rays N=0, E=2; negative rays
S=4, W=6. -/
def rook_attacks (sq occupied : Nat) : Nat :=
  let posDir := fun (attacks dir : Nat) =>
    let ray := rays dir sq
    let blockers := ray &&& occupied
    match Bitboard.lsb blockers with
    | some b => attacks ||| (ray &&& bnot64 (rays dir b))
    | none => attacks ||| ray
  let negDir := fun (attacks dir : Nat) =>
    let ray := rays dir sq
    let blockers := ray &&& occupied
    if blockers ≠ 0 then
      match Bitboard.msb blockers with
      | some b => attacks ||| (ray &&& bnot64 (rays dir b))
      | none => attacks ||| ray
    else attacks ||| ray
  negDir (negDir (posDir (posDir 0 0) 2) 4) 6

/-- `queen_attacks(sq, occupied)`. -/
def queen_attacks (sq occupied : Nat) : Nat :=
  bishop_attacks sq occupied ||| rook_attacks sq occupied

/-! ### `board.rs`: position representation -/

/-- `CastlingRights`. -/
structure CastlingRights where
  wk : Bool
  wq : Bool
  bk : Bool
  bq : Bool
deriving DecidableEq

/-- `PieceBitboards`: redundant piece sets, one u64 per color and one per
color × kind. -/
structure PieceBitboards where
  by_color : Color → Nat
  by_piece : Color → PieceKind → Nat

instance : DecidableEq PieceBitboards := fun a b =>
  decidable_of_iff (a.by_color = b.by_color ∧ a.by_piece = b.by_piece)
    (by cases a; cases b; simp)

namespace PieceBitboards

/-- `PieceBitboards::occupied`. -/
def occupied (b : PieceBitboards) : Nat :=
  b.by_color Color.White ||| b.by_color Color.Black

/-- `PieceBitboards::set`. -/
def set (b : PieceBitboards) (sq : Nat) (piece : Piece) : PieceBitboards where
  by_color := fun c =>
    if c = piece.color then b.by_color c ||| (1 <<< sq) else b.by_color c
  by_piece := fun c k =>
    if c = piece.color ∧ k = piece.kind then b.by_piece c k ||| (1 <<< sq)
    else b.by_piece c k

/-- `PieceBitboards::clear`. -/
def clear (b : PieceBitboards) (sq : Nat) (piece : Piece) : PieceBitboards where
  by_color := fun c =>
    if c = piece.color then b.by_color c &&& bnot64 (1 <<< sq) else b.by_color c
  by_piece := fun c k =>
    if c = piece.color ∧ k = piece.kind then b.by_piece c k &&& bnot64 (1 <<< sq)
    else b.by_piece c k

/-- `PieceBitboards::pieces`. -/
def pieces (b : PieceBitboards) (c : Color) (k : PieceKind) : Nat := b.by_piece c k

/-- `PieceBitboards::color`. -/
def color (b : PieceBitboards) (c : Color) : Nat := b.by_color c

end PieceBitboards

/-- `Position`: mailbox plus redundant bitboards plus game state. -/
structure Position where
  board : Fin 64 → Option Piece
  bitboards : PieceBitboards
  side_to_move : Color
  castling : CastlingRights
  en_passant : Option Nat
  halfmove_clock : Nat
  fullmove_number : Nat

instance : DecidableEq Position := fun a b =>
  decidable_of_iff
    (a.board = b.board ∧ a.bitboards = b.bitboards ∧
      a.side_to_move = b.side_to_move ∧ a.castling = b.castling ∧
      a.en_passant = b.en_passant ∧ a.halfmove_clock = b.halfmove_clock ∧
      a.fullmove_number = b.fullmove_number)
    (by cases a; cases b; simp)

/-- `Undo`. -/
structure Undo where
  captured : Option Piece
  castling : CastlingRights
  en_passant : Option Nat
  halfmove_clock : Nat
  fullmove_number : Nat
  moved_piece : Piece
  rook_move : Option (Nat × Nat)
  ep_captured_sq : Option Nat

namespace Position

/-- `Position::piece_at` (mailbox lookup by square index). -/
def piece_at (pos : Position) (sq : Nat) : Option Piece :=
  if h : sq < 64 then pos.board ⟨sq, h⟩ else none

/-- `Position::set_piece`: update mailbox and both bitboard sets.  An
out-of-range index would panic in Rust; it is unreachable from every call
site (move fields are 6 bits and helper squares are produced in range), and
is embedded as a no-op. -/
def set_piece (pos : Position) (sq : Nat) (pc : Option Piece) : Position :=
  if h : sq < 64 then
    let bb1 := match pos.board ⟨sq, h⟩ with
      | some old => pos.bitboards.clear sq old
      | none => pos.bitboards
    let bb2 := match pc with
      | some np => bb1.set sq np
      | none => bb1
    { pos with board := Function.update pos.board ⟨sq, h⟩ pc, bitboards := bb2 }
  else pos

/-- `Position::king_sq`. -/
def king_sq (pos : Position) (c : Color) : Option Nat :=
  Bitboard.lsb (pos.bitboards.pieces c PieceKind.King)

/-- `Position::is_square_attacked`: bitboard attack detection. -/
def is_square_attacked (pos : Position) (target : Nat) (c : Color) : Bool :=
  let occupied := pos.bitboards.occupied
  if pawn_attacks target (c ≠ Color.White) &&& pos.bitboards.pieces c PieceKind.Pawn ≠ 0 then
    true
  else if knight_attacks target &&& pos.bitboards.pieces c PieceKind.Knight ≠ 0 then
    true
  else if king_attacks target &&& pos.bitboards.pieces c PieceKind.King ≠ 0 then
    true
  else if bishop_attacks target occupied &&&
      (pos.bitboards.pieces c PieceKind.Bishop ||| pos.bitboards.pieces c PieceKind.Queen) ≠ 0 then
    true
  else if rook_attacks target occupied &&&
      (pos.bitboards.pieces c PieceKind.Rook ||| pos.bitboards.pieces c PieceKind.Queen) ≠ 0 then
    true
  else
    false

/-- `Position::in_check`. -/
def in_check (pos : Position) (c : Color) : Bool :=
  match pos.king_sq c with
  | some ksq => pos.is_square_attacked ksq c.other
  | none => false

/-- One sliding-direction walk of the legacy mailbox attack check: step in
direction `(df, dr)` from `(f, r)` until a piece or the board edge; true iff
the first piece found is a `k1` or `k2` of color `c`.  The fuel is 8, one
more than the longest possible walk, so it is never exhausted on-board. -/
def slide_walk (pos : Position) (c : Color) (k1 k2 : PieceKind)
    (f r df dr : Int) : Nat → Bool
  | 0 => false
  | fuel + 1 =>
    match sqOf f r with
    | none => false
    | some s =>
      match pos.piece_at s with
      | some pc => pc.color = c ∧ (pc.kind = k1 ∨ pc.kind = k2)
      | none => slide_walk pos c k1 k2 (f + df) (r + dr) df dr fuel

/-- `Position::is_square_attacked_mailbox`: the legacy mailbox reference
implementation. -/
def is_square_attacked_mailbox (pos : Position) (target : Nat) (c : Color) : Bool :=
  let tf := file_of target
  let tr := rank_of target
  let occBy := fun (df dr : Int) (k : PieceKind) =>
    match sqOf (tf + df) (tr + dr) with
    | some s =>
      match pos.piece_at s with
      | some pc => pc.color = c ∧ pc.kind = k
      | none => false
    | none => false
  let pawn_dirs : List (Int × Int) :=
    match c with
    | Color.White => [(-1, -1), (1, -1)]
    | Color.Black => [(-1, 1), (1, 1)]
  let knight : List (Int × Int) :=
    [(1, 2), (2, 1), (-1, 2), (-2, 1), (1, -2), (2, -1), (-1, -2), (-2, -1)]
  let king : List (Int × Int) :=
    [(1, 1), (1, 0), (1, -1), (0, 1), (0, -1), (-1, 1), (-1, 0), (-1, -1)]
  let diag : List (Int × Int) := [(1, 1), (1, -1), (-1, 1), (-1, -1)]
  let ortho : List (Int × Int) := [(1, 0), (-1, 0), (0, 1), (0, -1)]
  (pawn_dirs.any fun d => occBy d.1 d.2 PieceKind.Pawn) ||
  (knight.any fun d => occBy d.1 d.2 PieceKind.Knight) ||
  (king.any fun d => occBy d.1 d.2 PieceKind.King) ||
  (diag.any fun d =>
    slide_walk pos c PieceKind.Bishop PieceKind.Queen (tf + d.1) (tr + d.2) d.1 d.2 8) ||
  (ortho.any fun d =>
    slide_walk pos c PieceKind.Rook PieceKind.Queen (tf + d.1) (tr + d.2) d.1 d.2 8)

/-- The en-passant capture block of `make_move`: on an ep-flagged move,
remove the captured pawn one rank behind the target square and report the
position, the captured piece, the capture square and the clock-reset flag;
otherwise pass the inputs through. -/
def ep_phase (p0 : Position) (mv : Nat) (moved : Piece) (captured0 : Option Piece)
    (reset0 : Bool) : Position × Option Piece × Option Nat × Bool :=
  if Move.is_en_passant mv then
    let t := Move.toSq mv
    let dir : Int := match moved.color with
      | Color.White => -1
      | Color.Black => 1
    match sqOf (file_of t) (rank_of t + dir) with
    | some cs => (p0.set_piece cs none, p0.piece_at cs, some cs, true)
    | none => (p0, captured0, none, reset0)
  else (p0, captured0, none, reset0)

/-- The castling rook-move block of `make_move`: on a castle-flagged king
move, pick the rook's from/to squares from the king's trajectory and move
the rook (panic — `none` — when the rook is missing). -/
def castle_phase (p3 : Position) (mv : Nat) (moved : Piece) (reset2 : Bool) :
    Option (Position × Option (Nat × Nat) × Bool) :=
  if Move.is_castle mv ∧ moved.kind = PieceKind.King then
    let rfrt : Nat × Nat :=
      match moved.color, Move.fromSq mv, Move.toSq mv with
      | Color.White, 4, 6 => (7, 5)
      | Color.White, 4, 2 => (0, 3)
      | Color.Black, 60, 62 => (63, 61)
      | Color.Black, 60, 58 => (56, 59)
      | _, _, _ => (255, 255)
    if rfrt.1 ≠ 255 then
      match p3.piece_at rfrt.1 with
      | none => none
      | some rook =>
        some (((p3.set_piece rfrt.1 none).set_piece rfrt.2 (some rook), some rfrt, false))
    else some ((p3, none, false))
  else some ((p3, none, reset2))

/-- The castling-rights update of `make_move` for the moving side's king
and rook departures. -/
def rights_phase1 (c0 : CastlingRights) (moved : Piece) (f : Nat) : CastlingRights :=
  match moved.color with
  | Color.White =>
    let c := if moved.kind = PieceKind.King then { c0 with wk := false, wq := false } else c0
    let c := if moved.kind = PieceKind.Rook ∧ f = 0 then { c with wq := false } else c
    if moved.kind = PieceKind.Rook ∧ f = 7 then { c with wk := false } else c
  | Color.Black =>
    let c := if moved.kind = PieceKind.King then { c0 with bk := false, bq := false } else c0
    let c := if moved.kind = PieceKind.Rook ∧ f = 56 then { c with bq := false } else c
    if moved.kind = PieceKind.Rook ∧ f = 63 then { c with bk := false } else c

/-- The castling-rights update of `make_move` for a captured corner rook. -/
def rights_phase2 (c1 : CastlingRights) (captured : Option Piece) (t : Nat) : CastlingRights :=
  match captured with
  | some cp =>
    if cp.kind = PieceKind.Rook then
      match cp.color with
      | Color.White =>
        let c := if t = 0 then { c1 with wq := false } else c1
        if t = 7 then { c with wk := false } else c
      | Color.Black =>
        let c := if t = 56 then { c1 with bq := false } else c1
        if t = 63 then { c with bk := false } else c
    else c1
  | none => c1

/-- The en-passant target set by `make_move` on a double pawn push. -/
def new_ep_of (moved : Piece) (f t : Nat) : Option Nat :=
  if moved.kind = PieceKind.Pawn then
    let fr := rank_of f
    let tr := rank_of t
    if (moved.color = Color.White ∧ fr = 1 ∧ tr = 3) ∨
       (moved.color = Color.Black ∧ fr = 6 ∧ tr = 4) then
      sqOf (file_of f) ((fr + tr) / 2)
    else none
  else none

/-- `Position::make_move`, assembled from the blocks above in the source's
order.  Rust panics (`expect` on an empty from-square, `unwrap` on a
missing castling rook) are embedded as `none`. -/
def make_move (pos : Position) (mv : Nat) : Option (Position × Undo) :=
  let f := Move.fromSq mv
  let t := Move.toSq mv
  match pos.piece_at f with
  | none => none
  | some moved =>
    let captured0 := pos.piece_at t
    let p0 : Position := { pos with en_passant := none }
    let reset0 : Bool := moved.kind = PieceKind.Pawn ∨ captured0.isSome
    let epRes := ep_phase p0 mv moved captured0 reset0
    let p1 := epRes.1
    let captured := epRes.2.1
    let ep_captured_sq := epRes.2.2.1
    let reset1 := epRes.2.2.2
    -- move the piece
    let p2 := (p1.set_piece f none).set_piece t (some moved)
    -- promotion
    let promoCond : Bool := moved.kind = PieceKind.Pawn ∧
      ((moved.color = Color.White ∧ rank_of t = 7) ∨
       (moved.color = Color.Black ∧ rank_of t = 0))
    let p3 := if promoCond then
        p2.set_piece t (some { color := moved.color, kind := (Move.promo mv).getD PieceKind.Queen })
      else p2
    let reset2 := if promoCond then true else reset1
    match castle_phase p3 mv moved reset2 with
    | none => none
    | some (p4, rook_move, reset3) =>
      let c2 := rights_phase2 (rights_phase1 p4.castling moved f) captured t
      let new_ep := new_ep_of moved f t
      let hmc := if reset3 then 0 else pos.halfmove_clock + 1
      let fmn := if pos.side_to_move = Color.Black then pos.fullmove_number + 1
        else pos.fullmove_number
      let p5 : Position :=
        { p4 with
          castling := c2, en_passant := new_ep, halfmove_clock := hmc,
          fullmove_number := fmn, side_to_move := pos.side_to_move.other }
      some (p5,
        { captured := captured, castling := pos.castling, en_passant := pos.en_passant,
          halfmove_clock := pos.halfmove_clock, fullmove_number := pos.fullmove_number,
          moved_piece := moved, rook_move := rook_move,
          ep_captured_sq := ep_captured_sq })

/-- The rook-restoring block of `unmake_move`: move the castling rook back
(panic — `none` — when it is missing from its castling destination). -/
def unmake_rook_phase (p0 : Position) (rm : Option (Nat × Nat)) : Option Position :=
  match rm with
  | some (rf, rt) =>
    match p0.piece_at rt with
    | none => none
    | some rook => some ((p0.set_piece rt none).set_piece rf (some rook))
  | none => some p0

/-- `Position::unmake_move`.  The two `unwrap`s (missing rook on its castling
destination, empty to-square) are embedded as `none`. -/
def unmake_move (pos : Position) (mv : Nat) (undo : Undo) : Option Position :=
  let p0 : Position :=
    { pos with
      side_to_move := pos.side_to_move.other, castling := undo.castling,
      en_passant := undo.en_passant, halfmove_clock := undo.halfmove_clock,
      fullmove_number := undo.fullmove_number }
  let f := Move.fromSq mv
  let t := Move.toSq mv
  match unmake_rook_phase p0 undo.rook_move with
  | none => none
  | some p1 =>
    match p1.piece_at t with
    | none => none
    | some pot =>
      let piece_on_to : Piece :=
        if undo.moved_piece.kind = PieceKind.Pawn ∧
            ((undo.moved_piece.color = Color.White ∧ rank_of t = 7) ∨
             (undo.moved_piece.color = Color.Black ∧ rank_of t = 0)) then
          { color := undo.moved_piece.color, kind := PieceKind.Pawn }
        else pot
      let p2 := (p1.set_piece t none).set_piece f (some piece_on_to)
      some (if Move.is_en_passant mv then
              match undo.ep_captured_sq with
              | some cs => p2.set_piece cs undo.captured
              | none => p2
            else p2.set_piece t undo.captured)

/-- `Position::position_hash` / the identical `position_key` in the
classical engine's search: an FNV-style fingerprint of side, castling,
en-passant square, and board, ignoring the clocks. -/
def position_hash (pos : Position) : Nat :=
  let mix := fun (h x : Nat) => ((h ^^^ x) * 0x100000001b3) % 2 ^ 64
  let h := (0xcbf29ce484222325 : Nat)
  let h := mix h (match pos.side_to_move with
    | Color.White => 1
    | Color.Black => 2)
  let h := mix h (if pos.castling.wk then 3 else 5)
  let h := mix h (if pos.castling.wq then 7 else 11)
  let h := mix h (if pos.castling.bk then 13 else 17)
  let h := mix h (if pos.castling.bq then 19 else 23)
  let h := match pos.en_passant with
    | some ep => mix h (29 + ep)
    | none => h
  (List.range 64).foldl (fun h i =>
    let v := match pos.piece_at i with
      | some pc => i ^^^ (pc.color.idx <<< 6) ^^^ (pc.kind.idx <<< 3)
      | none => i
    mix h v) h

/-- The loop body of `Position::is_insufficient_material`; the counters are
threaded as a tuple `(white_knights, white_bishops, white_bishop_on_light,
black_knights, black_bishops, black_bishop_on_light, has_other_pieces)`. -/
def insuffStep (pos : Position) (st : Nat × Nat × Bool × Nat × Nat × Bool × Bool)
    (sq : Nat) : Nat × Nat × Bool × Nat × Nat × Bool × Bool :=
  let (wn, wb, wbl, bn, bb, bbl, oth) := st
  match pos.piece_at sq with
  | some piece =>
    match piece.kind with
    | PieceKind.King => (wn, wb, wbl, bn, bb, bbl, oth)
    | PieceKind.Knight =>
      if piece.color = Color.White then (wn + 1, wb, wbl, bn, bb, bbl, oth)
      else (wn, wb, wbl, bn + 1, bb, bbl, oth)
    | PieceKind.Bishop =>
      let light : Bool := decide ((sq / 8 + sq % 8) % 2 = 1)
      if piece.color = Color.White then
        (wn, wb + 1, wbl || light, bn, bb, bbl, oth)
      else (wn, wb, wbl, bn, bb + 1, bbl || light, oth)
    | _ => (wn, wb, wbl, bn, bb, bbl, true)
  | none => (wn, wb, wbl, bn, bb, bbl, oth)

/-- `Position::is_insufficient_material`. -/
def is_insufficient_material (pos : Position) : Bool :=
  let st := (List.range 64).foldl (insuffStep pos) (0, 0, false, 0, 0, false, false)
  let (wn, wb, wbl, bn, bb, bbl, oth) := st
  if oth then false
  else if wn + bn = 0 ∧ wb + bb = 0 then true
  else if (wn + bn) + (wb + bb) = 1 then true
  else if wn + bn = 0 ∧ wb = 1 ∧ bb = 1 ∧ wbl = bbl then true
  else false

/-- `Position::is_fifty_move_draw`. -/
def is_fifty_move_draw (pos : Position) : Bool := pos.halfmove_clock ≥ 100

/-- The empty board with the scalar fields of `Position::startpos`. -/
def startposBase : Position where
  board := fun _ => none
  bitboards := { by_color := fun _ => 0, by_piece := fun _ _ => 0 }
  side_to_move := Color.White
  castling := { wk := true, wq := true, bk := true, bq := true }
  en_passant := none
  halfmove_clock := 0
  fullmove_number := 1

/-- `Position::startpos`: pawns on ranks 2 and 7, the back-rank piece array
on ranks 1 and 8, all placed through `set_piece`. -/
def startpos : Position :=
  let p := (List.range 8).foldl
    (fun p f =>
      (p.set_piece (8 + f) (some { color := Color.White, kind := PieceKind.Pawn })).set_piece
        (48 + f) (some { color := Color.Black, kind := PieceKind.Pawn }))
    startposBase
  let back : List PieceKind :=
    [PieceKind.Rook, PieceKind.Knight, PieceKind.Bishop, PieceKind.Queen,
     PieceKind.King, PieceKind.Bishop, PieceKind.Knight, PieceKind.Rook]
  back.enum.foldl
    (fun p fk =>
      (p.set_piece fk.1 (some { color := Color.White, kind := fk.2 })).set_piece
        (56 + fk.1) (some { color := Color.Black, kind := fk.2 }))
    p

end Position

/-! ### `board.rs`: the FEN parser

`Position::from_fen` asserts/panics on malformed input; every such failure
is embedded as `none`. -/

/-- A `u32` as parsed by Rust's `str::parse::<u32>`: an optional `+` sign,
one or more ASCII digits, value below `2 ^ 32`. -/
def stripPlus : List Char → List Char
  | '+' :: rest => rest
  | l => l

/-- A `u32` as parsed by Rust's `str::parse::<u32>`: an optional `+` sign,
one or more ASCII digits, value below `2 ^ 32`. -/
def parseU32 (s : String) : Option Nat :=
  let ds := stripPlus s.data
  if ds ≠ [] ∧ ds.all Char.isDigit then
    let n := ds.foldl (fun acc c => acc * 10 + (c.toNat - '0'.toNat)) 0
    if n < 2 ^ 32 then some n else none
  else none

/-- One castling-rights character of a FEN record. -/
def castleStep (c : CastlingRights) (ch : Char) : Option CastlingRights :=
  if ch = 'K' then some { c with wk := true }
  else if ch = 'Q' then some { c with wq := true }
  else if ch = 'k' then some { c with bk := true }
  else if ch = 'q' then some { c with bq := true }
  else none

/-- One character step of the FEN rank parser: a digit advances the file,
a piece letter places a piece (invalid letters and square overflows fail),
and the `file <= 8` assert runs after every character. -/
def fenRankStep (rank : Int) (st : (Fin 64 → Option Piece) × Int) (ch : Char) :
    Option ((Fin 64 → Option Piece) × Int) := do
  let (board, file) := st
  let next ←
    (if ch.isDigit then
      some (board, file + ((ch.toNat - '0'.toNat : Nat) : Int))
    else
      let color := if ch.isUpper then Color.White else Color.Black
      let kind? : Option PieceKind :=
        if ch.toLower = 'p' then some PieceKind.Pawn
        else if ch.toLower = 'n' then some PieceKind.Knight
        else if ch.toLower = 'b' then some PieceKind.Bishop
        else if ch.toLower = 'r' then some PieceKind.Rook
        else if ch.toLower = 'q' then some PieceKind.Queen
        else if ch.toLower = 'k' then some PieceKind.King
        else none
      match kind? with
      | none => none
      | some kind =>
        match sqOf file rank with
        | none => none
        | some sq =>
          if h : sq < 64 then
            some (Function.update board ⟨sq, h⟩
              (some { color := color, kind := kind }), file + 1)
          else none)
  if next.2 ≤ 8 then pure next else none

/-- Parse one FEN rank string into mailbox updates; `rank` is the board rank
(7 down to 0).  Mirrors the inner character loop of `from_fen`, including
the `file == 8` assert at the end of the rank. -/
def fenRank (board0 : Fin 64 → Option Piece) (rank : Int) (s : String) :
    Option (Fin 64 → Option Piece) :=
  match s.data.foldlM (fenRankStep rank) (board0, 0) with
  | some (board, file) => if file = 8 then some board else none
  | none => none

/-- The default halfmove-clock field. -/
def zeroText : String := "0"

/-- The default fullmove-number field. -/
def oneText : String := "1"

/-- Rust `str::split_whitespace`, one character at a time: maximal
non-whitespace runs, no empty pieces. -/
def splitWsAux : List Char → List Char → List String → List String
  | [], cur, acc => acc ++ (if cur.isEmpty then [] else [String.mk cur.reverse])
  | c :: cs, cur, acc =>
      if c.isWhitespace then
        splitWsAux cs [] (acc ++ (if cur.isEmpty then [] else [String.mk cur.reverse]))
      else splitWsAux cs (c :: cur) acc

/-- Rust `str::split_whitespace` over a packed string. -/
def splitWs (s : String) : List String := splitWsAux s.data [] []

/-- Rust `str::split(sep)`, one character at a time: split at every
separator, keeping empty pieces. -/
def splitChAux (p : Char → Bool) : List Char → List Char → List String → List String
  | [], cur, acc => acc ++ [String.mk cur.reverse]
  | c :: cs, cur, acc =>
      if p c then splitChAux p cs [] (acc ++ [String.mk cur.reverse])
      else splitChAux p cs (c :: cur) acc

/-- Rust `str::split(sep)` over a packed string. -/
def splitCh (s : String) (p : Char → Bool) : List String := splitChAux p s.data [] []

/-- `Position::from_fen`. -/
def from_fen (fen : String) : Option Position :=
  let parts := splitWs fen
  match parts with
  | board_part :: stm_part :: castle_part :: ep_part :: rest =>
    let halfmove_part := (rest.get? 0).getD zeroText
    let fullmove_part := (rest.get? 1).getD oneText
    let ranks := splitCh board_part (· = '/')
    if ranks.length = 8 then
      (ranks.enum.foldlM
          (fun board ri => fenRank board (7 - (ri.1 : Int)) ri.2)
          (fun _ => none)).bind fun board =>
        (if stm_part = "w" then some Color.White
         else if stm_part = "b" then some Color.Black
         else none).bind fun side_to_move =>
          (if castle_part = "-" then
            some { wk := false, wq := false, bk := false, bq := false }
          else
            castle_part.data.foldlM castleStep
              { wk := false, wq := false, bk := false, bq := false }).bind fun castling =>
            let en_passant := if ep_part = "-" then none else coord_to_sq ep_part
            (parseU32 halfmove_part).bind fun halfmove_clock =>
              (parseU32 fullmove_part).bind fun fullmove_number =>
                let bitboards := (List.range 64).foldl
                  (fun bbs sq =>
                    if h : sq < 64 then
                      match board ⟨sq, h⟩ with
                      | some piece => bbs.set sq piece
                      | none => bbs
                    else bbs)
                  ({ by_color := fun _ => 0, by_piece := fun _ _ => 0 } : PieceBitboards)
                some { board := board, bitboards := bitboards, side_to_move := side_to_move,
                       castling := castling, en_passant := en_passant,
                       halfmove_clock := halfmove_clock, fullmove_number := fullmove_number }
    else none
  | _ => none

/-! ### `movegen.rs`: pseudo-legal generation and the legality filter

Each `while let Some(sq) = bb.pop_lsb()` loop enumerates the set bits of a
bitboard in increasing order; `Bitboard.toList` yields exactly that
sequence, so the generated move lists below are in the same order as the
Rust generator's output vector. -/

/-- `add_promotions`: queen, rook, bishop, knight, in that order. -/
def add_promotions (f t : Nat) : List Nat :=
  [Move.with_promo f t PieceKind.Queen, Move.with_promo f t PieceKind.Rook,
   Move.with_promo f t PieceKind.Bishop, Move.with_promo f t PieceKind.Knight]

/-- `gen_pawn_moves`: pushes, double pushes, captures, promotions and
en passant, in the source's emission order. -/
def gen_pawn_moves (pos : Position) (us : Color) (their_pieces empt : Nat) : List Nat :=
  let pawns := pos.bitboards.pieces us PieceKind.Pawn
  let push_dir := match us with
    | Color.White => Bitboard.north
    | Color.Black => Bitboard.south
  let start_rank := match us with
    | Color.White => Bitboard.RANK_2
    | Color.Black => Bitboard.RANK_7
  let promo_rank := match us with
    | Color.White => Bitboard.RANK_8
    | Color.Black => Bitboard.RANK_1
  let double_rank := match us with
    | Color.White => Bitboard.RANK_4
    | Color.Black => Bitboard.RANK_5
  let back_dir : Int := match us with
    | Color.White => -8
    | Color.Black => 8
  let single_push := push_dir pawns &&& empt
  let nonPromoPush := (Bitboard.toList (single_push &&& bnot64 promo_rank)).map
    (fun (t : Nat) => Move.new ((t : Int) + back_dir).toNat t)
  let promoPush := (Bitboard.toList (single_push &&& promo_rank)).flatMap
    (fun (t : Nat) => add_promotions ((t : Int) + back_dir).toNat t)
  let can_double := pawns &&& start_rank
  let first_push := push_dir can_double &&& empt
  let doubles := (Bitboard.toList (push_dir first_push &&& empt &&& double_rank)).map
    (fun (t : Nat) => Move.new ((t : Int) + 2 * back_dir).toNat t)
  let attack_left := match us with
    | Color.White => Bitboard.north_west
    | Color.Black => Bitboard.south_west
  let attack_right := match us with
    | Color.White => Bitboard.north_east
    | Color.Black => Bitboard.south_east
  let back_left : Int := match us with
    | Color.White => -7
    | Color.Black => 9
  let back_right : Int := match us with
    | Color.White => -9
    | Color.Black => 7
  let leftCaps := (Bitboard.toList (attack_left pawns &&& their_pieces &&& bnot64 promo_rank)).map
    (fun (t : Nat) => Move.new ((t : Int) + back_left).toNat t)
  let leftPromoCaps := (Bitboard.toList (attack_left pawns &&& their_pieces &&& promo_rank)).flatMap
    (fun (t : Nat) => add_promotions ((t : Int) + back_left).toNat t)
  let rightCaps := (Bitboard.toList (attack_right pawns &&& their_pieces &&& bnot64 promo_rank)).map
    (fun (t : Nat) => Move.new ((t : Int) + back_right).toNat t)
  let rightPromoCaps := (Bitboard.toList (attack_right pawns &&& their_pieces &&& promo_rank)).flatMap
    (fun (t : Nat) => add_promotions ((t : Int) + back_right).toNat t)
  let epMoves := match pos.en_passant with
    | some ep_sq =>
      let ep_bb := Bitboard.from_square ep_sq
      (if attack_left pawns &&& ep_bb ≠ 0 then
        [Move.set_en_passant (Move.new ((ep_sq : Int) + back_left).toNat ep_sq) true]
      else []) ++
      (if attack_right pawns &&& ep_bb ≠ 0 then
        [Move.set_en_passant (Move.new ((ep_sq : Int) + back_right).toNat ep_sq) true]
      else [])
    | none => []
  nonPromoPush ++ promoPush ++ doubles ++ leftCaps ++ leftPromoCaps ++
    rightCaps ++ rightPromoCaps ++ epMoves

/-- `gen_knight_moves`. -/
def gen_knight_moves (pos : Position) (us : Color) (our_pieces : Nat) : List Nat :=
  (Bitboard.toList (pos.bitboards.pieces us PieceKind.Knight)).flatMap
    (fun f => (Bitboard.toList (knight_attacks f &&& bnot64 our_pieces)).map
      (fun t => Move.new f t))

/-- `gen_bishop_moves`. -/
def gen_bishop_moves (pos : Position) (us : Color) (our_pieces occupied : Nat) : List Nat :=
  (Bitboard.toList (pos.bitboards.pieces us PieceKind.Bishop)).flatMap
    (fun f => (Bitboard.toList (bishop_attacks f occupied &&& bnot64 our_pieces)).map
      (fun t => Move.new f t))

/-- `gen_rook_moves`. -/
def gen_rook_moves (pos : Position) (us : Color) (our_pieces occupied : Nat) : List Nat :=
  (Bitboard.toList (pos.bitboards.pieces us PieceKind.Rook)).flatMap
    (fun f => (Bitboard.toList (rook_attacks f occupied &&& bnot64 our_pieces)).map
      (fun t => Move.new f t))

/-- `gen_queen_moves`. -/
def gen_queen_moves (pos : Position) (us : Color) (our_pieces occupied : Nat) : List Nat :=
  (Bitboard.toList (pos.bitboards.pieces us PieceKind.Queen)).flatMap
    (fun f => (Bitboard.toList (queen_attacks f occupied &&& bnot64 our_pieces)).map
      (fun t => Move.new f t))

/-- `gen_king_moves`. -/
def gen_king_moves (pos : Position) (us : Color) (our_pieces : Nat) : List Nat :=
  (Bitboard.toList (pos.bitboards.pieces us PieceKind.King)).flatMap
    (fun f => (Bitboard.toList (king_attacks f &&& bnot64 our_pieces)).map
      (fun t => Move.new f t))

/-- `gen_castling_moves`: king not in check, path squares empty, traversal
squares unattacked. -/
def gen_castling_moves (pos : Position) (us : Color) (occupied : Nat) : List Nat :=
  if pos.in_check us then []
  else
    let enemy := us.other
    match us with
    | Color.White =>
      (if pos.castling.wk ∧ occupied &&& 0x60 = 0 ∧
          pos.is_square_attacked 5 enemy = false ∧
          pos.is_square_attacked 6 enemy = false then
        [Move.set_castle (Move.new 4 6) true]
      else []) ++
      (if pos.castling.wq ∧ occupied &&& 0x0E = 0 ∧
          pos.is_square_attacked 2 enemy = false ∧
          pos.is_square_attacked 3 enemy = false then
        [Move.set_castle (Move.new 4 2) true]
      else [])
    | Color.Black =>
      (if pos.castling.bk ∧ occupied &&& 0x6000000000000000 = 0 ∧
          pos.is_square_attacked 61 enemy = false ∧
          pos.is_square_attacked 62 enemy = false then
        [Move.set_castle (Move.new 60 62) true]
      else []) ++
      (if pos.castling.bq ∧ occupied &&& 0x0E00000000000000 = 0 ∧
          pos.is_square_attacked 58 enemy = false ∧
          pos.is_square_attacked 59 enemy = false then
        [Move.set_castle (Move.new 60 58) true]
      else [])

/-- `pseudo_moves`: concatenation of the per-piece generators in source
order. -/
def pseudo_moves (pos : Position) : List Nat :=
  let us := pos.side_to_move
  let them := us.other
  let our_pieces := pos.bitboards.color us
  let their_pieces := pos.bitboards.color them
  let occupied := pos.bitboards.occupied
  let empt := bnot64 occupied
  gen_pawn_moves pos us their_pieces empt ++
  gen_knight_moves pos us our_pieces ++
  gen_bishop_moves pos us our_pieces occupied ++
  gen_rook_moves pos us our_pieces occupied ++
  gen_queen_moves pos us our_pieces occupied ++
  gen_king_moves pos us our_pieces ++
  gen_castling_moves pos us occupied

/-- `legal_moves` / `legal_moves_into`: pseudo-legal moves filtered by the
make / in-check / unmake test.  The `retain` closure calls `make_move`,
which panics when the from-square is empty; that (unreachable for generator
moves on a coherent position) panic is embedded by dropping the move. -/
def legal_moves (pos : Position) : List Nat :=
  (pseudo_moves pos).filter fun mv =>
    match pos.make_move mv with
    | some (p', _) => !(p'.in_check pos.side_to_move)
    | none => false

/-! ### `perft.rs`

`perft` keeps one preallocated move buffer per remaining ply; `inner` splits
one buffer off per level and panics (`expect`) when none is left.  The
buffer stack is embedded as the count `layers` of remaining buffers, and the
in-place make / recurse / unmake mutation as explicit position threading:
each loop step hands the position returned by `unmake_move` to the next
move.  All panics are `none`. -/

def perft_inner (p : Position) (depth : Nat) (layers : Nat) : Option (Nat × Position) :=
  if depth = 0 then some (1, p)
  else
    match layers with
    | 0 => none
    | layers' + 1 =>
      (legal_moves p).foldl
        (fun st mv =>
          match st with
          | none => none
          | some (acc, q) =>
            match q.make_move mv with
            | none => none
            | some (q1, undo) =>
              match perft_inner q1 (depth - 1) layers' with
              | none => none
              | some (n, q2) =>
                match q2.unmake_move mv undo with
                | none => none
                | some q3 => some (acc + n, q3))
        (some (0, p))
termination_by depth
decreasing_by omega

/-- `perft(pos, depth)`: the depth-0 fast path, then `inner` with one buffer
per ply. -/
def perft (p : Position) (depth : Nat) : Option Nat :=
  if depth = 0 then some 1
  else (perft_inner p depth depth).map Prod.fst

/-! ### `uci.rs`: move parsing -/

/-- The matching loop of `parse_uci_move`: find the first legal move with
the parsed from/to squares; when a promotion letter was given, overwrite the
move's promo field before the (consequently vacuous) mismatch test. -/
def match_uci_move (fromS toS : Nat) (promo : Option PieceKind) : List Nat → Option Nat
  | [] => none
  | m :: rest =>
    if Move.fromSq m = fromS ∧ Move.toSq m = toS then
      let m' := if promo.isSome then Move.set_promo m promo else m
      if promo.isSome ∧ Move.promo m' ≠ promo then match_uci_move fromS toS promo rest
      else some m'
    else match_uci_move fromS toS promo rest

/-- `parse_uci_move`.  Rust indexes the byte slices `txt[0..2]`, `txt[2..4]`
and `txt.as_bytes()[4]`; on ASCII input (anything else fails the coordinate
and promotion-letter range tests either way) this equals the character
slicing used here. -/
def parse_uci_move (pos : Position) (txt : String) : Option Nat := do
  if txt.length < 4 then none
  else do
    let fromS ← coord_to_sq (String.mk (txt.data.take 2))
    let toS ← coord_to_sq (String.mk ((txt.data.drop 2).take 2))
    let promo : Option PieceKind :=
      if txt.length ≥ 5 then
        match txt.data.get? 4 with
        | some c =>
          if c = 'q' ∨ c = 'Q' then some PieceKind.Queen
          else if c = 'r' ∨ c = 'R' then some PieceKind.Rook
          else if c = 'b' ∨ c = 'B' then some PieceKind.Bishop
          else if c = 'n' ∨ c = 'N' then some PieceKind.Knight
          else none
        | none => none
      else none
    match_uci_move fromS toS promo (legal_moves pos)

/-! ### `classical_engine`: evaluation and negamax search -/

/-- `eval.rs` `piece_value`. -/
def piece_value : PieceKind → Int
  | PieceKind.Pawn => 100
  | PieceKind.Knight => 320
  | PieceKind.Bishop => 330
  | PieceKind.Rook => 500
  | PieceKind.Queen => 900
  | PieceKind.King => 0

/-- `eval.rs` `evaluate`: material count from the side-to-move's
perspective. -/
def evaluate (pos : Position) : Int :=
  let score := (List.range 64).foldl
    (fun s sq =>
      match pos.piece_at sq with
      | some pc => if pc.color = Color.White then s + piece_value pc.kind
                   else s - piece_value pc.kind
      | none => s)
    0
  if pos.side_to_move = Color.White then score else -score

/-- `search.rs` `negamax` of the classical engine.

The wall-clock poll `tc.should_check_time(*nodes) && tc.check_time()` is a
read of shared mutable time state; it is abstracted as an oracle
`tcStop : Nat → Bool` of the node counter.  The node counter is threaded
through and returned.  The move loop's `break` / early `return` are rendered
as a fold that passes its state through unchanged once stopped or cut off,
and the in-place make / unmake pair as recursion on the child position. -/
def negamax (tcStop : Nat → Bool) (pos : Position) (depth : Nat)
    (alpha beta : Int) (history : List Nat) (nodes : Nat) : Int × Bool × Nat :=
  if tcStop nodes then (0, true, nodes)
  else if pos.is_fifty_move_draw then (0, false, nodes)
  else
    let curr_key := history.getLast?.getD pos.position_hash
    if 3 ≤ (history.filter (· = curr_key)).length then (0, false, nodes)
    else if pos.is_insufficient_material then (0, false, nodes)
    else
      let moves := legal_moves pos
      if moves.isEmpty then
        if pos.in_check pos.side_to_move then (-100000, false, nodes)
        else (0, false, nodes)
      else if hd : depth = 0 then (evaluate pos, false, nodes)
      else
        -- state: (best, alpha, stopped, cutoff, nodes)
        let res := moves.foldl
          (fun (st : Int × Int × Bool × Bool × Nat) mv =>
            let (best, a, stopped, cut, nds) := st
            if stopped ∨ cut then st
            else
              match pos.make_move mv with
              | none => st
              | some (p', _undo) =>
                let (s0, wasStopped, nds') :=
                  negamax tcStop p' (depth - 1) (-beta) (-a)
                    (history ++ [p'.position_hash]) (nds + 1)
                let score := -s0
                if wasStopped then (best, a, true, cut, nds')
                else
                  let best' := if score > best then score else best
                  let a' := if best' > a then best' else a
                  (best', a', false, a' ≥ beta, nds'))
          (-2147483647, alpha, false, false, nodes)
        (res.1, res.2.2.1, res.2.2.2.2)
termination_by depth
decreasing_by omega

/-! ### Specification-side predicates

The invariants below transcribe the reachable-position invariant list of the
specification's data-model section; claims C1/C5 quantify over positions
satisfying them. -/

/-- Mailbox/bitboard coherence: for every square, the mailbox entry holds
piece `(c, k)` iff bit `s` is set in `by_piece c k` and in `by_color c`, and
every bitboard is a valid u64. -/
def Coherent (pos : Position) : Prop :=
  (∀ c k, pos.bitboards.by_piece c k < 2 ^ 64) ∧
  (∀ c, pos.bitboards.by_color c < 2 ^ 64) ∧
  (∀ s : Fin 64, ∀ c k,
    (pos.bitboards.by_piece c k).testBit s.val = true ↔
      pos.board s = some { color := c, kind := k }) ∧
  (∀ s : Fin 64, ∀ c,
    (pos.bitboards.by_color c).testBit s.val = true ↔
      ∃ k, pos.board s = some { color := c, kind := k })

/-- En-passant invariant: a present target square is on rank 3 or rank 6
(index 2 or 5), the passed-over target square is empty, and the pawn that
made the double push sits immediately beyond it. -/
def EpOk (pos : Position) : Prop :=
  pos.en_passant = none ∨
  ∃ e : Fin 64, pos.en_passant = some e.val ∧
    (e.val / 8 = 2 ∨ e.val / 8 = 5) ∧ pos.piece_at e.val = none ∧
    (e.val / 8 = 2 →
      pos.piece_at (e.val + 8) = some { color := Color.White, kind := PieceKind.Pawn }) ∧
    (e.val / 8 = 5 →
      pos.piece_at (e.val - 8) = some { color := Color.Black, kind := PieceKind.Pawn })

/-- Castling-rights invariant: each right implies the corresponding king and
rook stand on their original squares. -/
def CastleOk (pos : Position) : Prop :=
  (pos.castling.wk = true →
    pos.piece_at 4 = some { color := Color.White, kind := PieceKind.King } ∧
    pos.piece_at 7 = some { color := Color.White, kind := PieceKind.Rook }) ∧
  (pos.castling.wq = true →
    pos.piece_at 4 = some { color := Color.White, kind := PieceKind.King } ∧
    pos.piece_at 0 = some { color := Color.White, kind := PieceKind.Rook }) ∧
  (pos.castling.bk = true →
    pos.piece_at 60 = some { color := Color.Black, kind := PieceKind.King } ∧
    pos.piece_at 63 = some { color := Color.Black, kind := PieceKind.Rook }) ∧
  (pos.castling.bq = true →
    pos.piece_at 60 = some { color := Color.Black, kind := PieceKind.King } ∧
    pos.piece_at 56 = some { color := Color.Black, kind := PieceKind.Rook })

/-- Exactly one king of each color. -/
def OneKingEach (pos : Position) : Prop :=
  ∀ c, ∃ s : Fin 64,
    pos.board s = some { color := c, kind := PieceKind.King } ∧
    ∀ s' : Fin 64, pos.board s' = some { color := c, kind := PieceKind.King } → s' = s

/-- The side that is not to move is not in check. -/
def OppNotInCheck (pos : Position) : Prop :=
  pos.in_check pos.side_to_move.other = false

/-- Pawns never occupy rank 1 or rank 8. -/
def PawnsOnValidRanks (pos : Position) : Prop :=
  ∀ s : Fin 64, ∀ c,
    pos.board s = some { color := c, kind := PieceKind.Pawn } → 8 ≤ s.val ∧ s.val < 56

/-- The part of the reachable-position invariants that is closed under
legal moves and carries the make/unmake and perft proofs. -/
def SearchInv (pos : Position) : Prop :=
  Coherent pos ∧ EpOk pos ∧ CastleOk pos ∧ OneKingEach pos ∧ OppNotInCheck pos

/-- The specification's full reachable-position invariant list. -/
def ReachableInv (pos : Position) : Prop :=
  SearchInv pos ∧ PawnsOnValidRanks pos

instance (pos : Position) : Decidable (Coherent pos) := by
  unfold Coherent; infer_instance

instance (pos : Position) : Decidable (EpOk pos) := by
  unfold EpOk; infer_instance

instance (pos : Position) : Decidable (CastleOk pos) := by
  unfold CastleOk; infer_instance

instance (pos : Position) : Decidable (OneKingEach pos) := by
  unfold OneKingEach; infer_instance

instance (pos : Position) : Decidable (OppNotInCheck pos) := by
  unfold OppNotInCheck; infer_instance

instance (pos : Position) : Decidable (PawnsOnValidRanks pos) := by
  unfold PawnsOnValidRanks; infer_instance

instance (pos : Position) : Decidable (SearchInv pos) := by
  unfold SearchInv; infer_instance

instance (pos : Position) : Decidable (ReachableInv pos) := by
  unfold ReachableInv; infer_instance

/-- The perft recurrence as the specification states it: depth 0 counts one
leaf, and depth `d + 1` sums the counts of the positions after each legal
move.  (`make_move` cannot fail on a legal move; the `none` arm is dead.) -/
def perftSpec (pos : Position) : Nat → Nat
  | 0 => 1
  | d + 1 =>
    ((legal_moves pos).map (fun mv =>
      match pos.make_move mv with
      | some (p', _) => perftSpec p' d
      | none => 0)).sum
termination_by d => d

/-- Number of squares holding a given piece. -/
def pieceCount (pos : Position) (c : Color) (k : PieceKind) : Nat :=
  ((List.range 64).filter (fun s => pos.piece_at s = some { color := c, kind := k })).length

/-- C9's insufficient-material predicate exactly as the claim words it:
no pawns, rooks, or queens, and (a) no minor piece, or (b) exactly one
minor piece in total, or (c) exactly one bishop on each side with both
bishops on same-colored squares. -/
def insufficientClaim (pos : Position) : Prop :=
  (∀ c, pieceCount pos c PieceKind.Pawn = 0 ∧ pieceCount pos c PieceKind.Rook = 0 ∧
    pieceCount pos c PieceKind.Queen = 0) ∧
  (pieceCount pos Color.White PieceKind.Knight +
      pieceCount pos Color.Black PieceKind.Knight +
      pieceCount pos Color.White PieceKind.Bishop +
      pieceCount pos Color.Black PieceKind.Bishop = 0 ∨
   pieceCount pos Color.White PieceKind.Knight +
      pieceCount pos Color.Black PieceKind.Knight +
      pieceCount pos Color.White PieceKind.Bishop +
      pieceCount pos Color.Black PieceKind.Bishop = 1 ∨
    (pieceCount pos Color.White PieceKind.Bishop = 1 ∧
     pieceCount pos Color.Black PieceKind.Bishop = 1 ∧
     ∀ s s' : Fin 64,
       pos.board s = some { color := Color.White, kind := PieceKind.Bishop } →
       pos.board s' = some { color := Color.Black, kind := PieceKind.Bishop } →
       (s.val % 8 + s.val / 8) % 2 = (s'.val % 8 + s'.val / 8) % 2))

instance (pos : Position) : Decidable (insufficientClaim pos) := by
  unfold insufficientClaim; infer_instance

/-- The amended form of C9's predicate: case (c) additionally requires that
no knights remain (which is what the code tests). -/
def insufficientAmended (pos : Position) : Prop :=
  (∀ c, pieceCount pos c PieceKind.Pawn = 0 ∧ pieceCount pos c PieceKind.Rook = 0 ∧
    pieceCount pos c PieceKind.Queen = 0) ∧
  (pieceCount pos Color.White PieceKind.Knight +
      pieceCount pos Color.Black PieceKind.Knight +
      pieceCount pos Color.White PieceKind.Bishop +
      pieceCount pos Color.Black PieceKind.Bishop = 0 ∨
   pieceCount pos Color.White PieceKind.Knight +
      pieceCount pos Color.Black PieceKind.Knight +
      pieceCount pos Color.White PieceKind.Bishop +
      pieceCount pos Color.Black PieceKind.Bishop = 1 ∨
    (pieceCount pos Color.White PieceKind.Knight = 0 ∧
     pieceCount pos Color.Black PieceKind.Knight = 0 ∧
     pieceCount pos Color.White PieceKind.Bishop = 1 ∧
     pieceCount pos Color.Black PieceKind.Bishop = 1 ∧
     ∀ s s' : Fin 64,
       pos.board s = some { color := Color.White, kind := PieceKind.Bishop } →
       pos.board s' = some { color := Color.Black, kind := PieceKind.Bishop } →
       (s.val % 8 + s.val / 8) % 2 = (s'.val % 8 + s'.val / 8) % 2))

/-! ### Counting helpers and concrete test positions -/

/-- Whether square `s` holds piece `(c, k)` (used to state counting facts
about the material loop). -/
def cntP (pos : Position) (c : Color) (k : PieceKind) (s : Nat) : Bool :=
  pos.piece_at s = some { color := c, kind := k }

/-- The light-square test of the material loop: `(sq / 8 + sq % 8) % 2 = 1`. -/
def lightSq (s : Nat) : Bool := (s / 8 + s % 8) % 2 = 1

/-- Whether square `s` holds a bishop of color `c` on a light square. -/
def bolP (pos : Position) (c : Color) (s : Nat) : Bool :=
  cntP pos c PieceKind.Bishop s && lightSq s

/-- Whether square `s` holds a pawn, rook or queen of either color. -/
def othP (pos : Position) (s : Nat) : Bool :=
  match pos.piece_at s with
  | some pc => pc.kind = PieceKind.Pawn ∨ pc.kind = PieceKind.Rook ∨
      pc.kind = PieceKind.Queen
  | none => false

/-- K+B+N versus K+B with both bishops on dark squares (white Ka1, Nb1,
Bc1; black Bf8, Kh8): claim C9's case (c) holds literally (one bishop each
side, same square color) although a knight remains, so the code reports
sufficient material. -/
def C9cexPos : Position :=
  ((((Position.startposBase.set_piece 0
      (some { color := Color.White, kind := PieceKind.King })).set_piece 1
      (some { color := Color.White, kind := PieceKind.Knight })).set_piece 2
      (some { color := Color.White, kind := PieceKind.Bishop })).set_piece 61
      (some { color := Color.Black, kind := PieceKind.Bishop })).set_piece 63
      (some { color := Color.Black, kind := PieceKind.King })

/-- A FEN piece-placement character: a digit or a piece letter. -/
def validFenChar (ch : Char) : Bool :=
  ch.isDigit ||
    (ch.toLower = 'p' ∨ ch.toLower = 'n' ∨ ch.toLower = 'b' ∨
     ch.toLower = 'r' ∨ ch.toLower = 'q' ∨ ch.toLower = 'k')

/-- Number of files covered by a FEN rank string (a digit advances by its
value, a piece letter by one). -/
def fileSum (s : String) : Nat :=
  (s.data.map (fun ch => if ch.isDigit then ch.toNat - '0'.toNat else 1)).sum

/-- A position whose halfmove clock has reached 100 (for the fifty-move
arm of the search-order theorem). -/
def C4pos : Position := { Position.startposBase with halfmove_clock := 100 }

/-- White Ka1 and Pa2 versus black Kh2, white to move, no castling rights:
a 4-legal-move position used to evaluate the UCI-parser bug. -/
def C7pos : Position :=
  ((({ Position.startposBase with
      castling := { wk := false, wq := false, bk := false, bq := false } }).set_piece 0
      (some { color := Color.White, kind := PieceKind.King })).set_piece 8
      (some { color := Color.White, kind := PieceKind.Pawn })).set_piece 15
      (some { color := Color.Black, kind := PieceKind.King })

/-- The move text `a2a3q`: a promotion letter appended to a from/to pair
whose matching legal move is not a promotion. -/
def C7text : String := "a2a3q"

/-- A FEN record whose en-passant field `zz` is neither `-` nor a valid
coordinate. -/
def fenEpBad : String := "4k3/8/8/8/8/8/8/4K3 w - zz 0 1"

/-- The en-passant field of `fenEpBad`. -/
def zzText : String := "zz"

/-- A FEN record with an empty board and the invalid side-to-move field
`x`, used to exercise a failing branch of `from_fen`. -/
def c8wFen : String := "8/8/8/8/8/8/8/8 x - - 0 1"

/-- The board field of `c8wFen`. -/
def c8wBoard : String := "8/8/8/8/8/8/8/8"

/-- The side-to-move field of `c8wFen`. -/
def xText : String := "x"

/-- The `-` field of a FEN record. -/
def dashText : String := "-"

/-! ### Spec-side slider-reach and attack predicates (C3, C10) -/

/-- A slider on `sq` reaches `t` along the increasing-index ray of bit step
`s` and length `L`: `t` is the `i`-th ray square and every strictly earlier
ray square is unoccupied (so the first blocker is included and everything
beyond it excluded). -/
def reachPos (s L sq occ t : Nat) : Prop :=
  ∃ i, 1 ≤ i ∧ i ≤ L ∧ t = sq + i * s ∧
    ∀ j, 1 ≤ j → j < i → occ.testBit (sq + j * s) = false

/-- A slider on `sq` reaches `t` along the decreasing-index ray of bit step
`s` and length `L`. -/
def reachNeg (s L sq occ t : Nat) : Prop :=
  ∃ i, 1 ≤ i ∧ i ≤ L ∧ t = sq - i * s ∧
    ∀ j, 1 ≤ j → j < i → occ.testBit (sq - j * s) = false

/-- A `c`-colored leaper of kind `k` sits one `(df, dr)` offset from `t`. -/
def leaperAt (pos : Position) (t : Nat) (c : Color) (d : Int × Int)
    (k : PieceKind) : Prop :=
  ∃ s, sqOf (file_of t + d.1) (rank_of t + d.2) = some s ∧
    ∃ pc, pos.piece_at s = some pc ∧ pc.color = c ∧ pc.kind = k

/-- A `c`-colored slider of kind `k1` or `k2` sees `t` along direction
`(df, dr)`: it stands `i` steps away and every strictly-closer step square
is on the board and empty. -/
def sliderAt (pos : Position) (t : Nat) (c : Color) (d : Int × Int)
    (k1 k2 : PieceKind) : Prop :=
  ∃ i : Nat, 1 ≤ i ∧
    (∀ j : Nat, 1 ≤ j → j < i →
      ∃ s, sqOf (file_of t + j * d.1) (rank_of t + j * d.2) = some s ∧
        pos.piece_at s = none) ∧
    ∃ s, sqOf (file_of t + i * d.1) (rank_of t + i * d.2) = some s ∧
      ∃ pc, pos.piece_at s = some pc ∧ pc.color = c ∧
        (pc.kind = k1 ∨ pc.kind = k2)

/-- The pawn capture offsets probed by the mailbox reference checker. -/
def pawnDirs : Color → List (Int × Int)
  | Color.White => [(-1, -1), (1, -1)]
  | Color.Black => [(-1, 1), (1, 1)]

/-- Knight offsets of the mailbox reference checker. -/
def knightDirs : List (Int × Int) :=
  [(1, 2), (2, 1), (-1, 2), (-2, 1), (1, -2), (2, -1), (-1, -2), (-2, -1)]

/-- King offsets of the mailbox reference checker. -/
def kingDirs : List (Int × Int) :=
  [(1, 1), (1, 0), (1, -1), (0, 1), (0, -1), (-1, 1), (-1, 0), (-1, -1)]

/-- Diagonal slider directions. -/
def diagDirs : List (Int × Int) := [(1, 1), (1, -1), (-1, 1), (-1, -1)]

/-- Orthogonal slider directions. -/
def orthoDirs : List (Int × Int) := [(1, 0), (-1, 0), (0, 1), (0, -1)]

/-- The geometric attack predicate both attack checkers are proved
equivalent to: some piece of color `c` attacks square `t`. -/
def attackedSpec (pos : Position) (t : Nat) (c : Color) : Prop :=
  (∃ d ∈ pawnDirs c, leaperAt pos t c d PieceKind.Pawn) ∨
  (∃ d ∈ knightDirs, leaperAt pos t c d PieceKind.Knight) ∨
  (∃ d ∈ kingDirs, leaperAt pos t c d PieceKind.King) ∨
  (∃ d ∈ diagDirs, sliderAt pos t c d PieceKind.Bishop PieceKind.Queen) ∨
  (∃ d ∈ orthoDirs, sliderAt pos t c d PieceKind.Rook PieceKind.Queen)

/-! ## Theorems

### Generic bit-level lemmas -/

open Position

theorem testBit_ones64 {i : Nat} (h : i < 64) : (mask64).testBit i = true := by
  rw [mask64, Nat.testBit_two_pow_sub_one]
  simpa using h

theorem testBit_ones64_ge {i : Nat} (h : 64 ≤ i) : (mask64).testBit i = false := by
  rw [mask64, Nat.testBit_two_pow_sub_one]
  simpa using Nat.not_lt.mpr h

theorem testBit_bnot64 {x i : Nat} (h : i < 64) :
    (bnot64 x).testBit i = !x.testBit i := by
  rw [bnot64, Nat.testBit_xor, testBit_ones64 h, Bool.xor_true]

theorem testBit_bnot64_ge {x i : Nat} (h : 64 ≤ i) :
    (bnot64 x).testBit i = x.testBit i := by
  rw [bnot64, Nat.testBit_xor, testBit_ones64_ge h, Bool.xor_false]

theorem testBit_one_shl {s i : Nat} : ((1 <<< s : Nat)).testBit i = decide (i = s) := by
  have h1 : (1 <<< s : Nat) = 2 ^ s := by rw [Nat.shiftLeft_eq, Nat.one_mul]
  rw [h1, Nat.testBit_two_pow]
  by_cases h : s = i
  · simp [h]
  · simp [h, Ne.symm h]

theorem one_shl_lt_two_pow {s : Nat} (h : s < 64) : (1 <<< s : Nat) < 2 ^ 64 := by
  have h1 : (1 <<< s : Nat) = 2 ^ s := by rw [Nat.shiftLeft_eq, Nat.one_mul]
  rw [h1]
  exact Nat.pow_lt_pow_right (by norm_num) h

theorem testBit_shl64 {x k i : Nat} :
    (shl64 x k).testBit i = (decide (i < 64) && decide (k ≤ i) && x.testBit (i - k)) := by
  rw [shl64, Nat.testBit_mod_two_pow, Nat.testBit_shiftLeft]
  rcases Nat.lt_or_ge i 64 with h | h <;> rcases Nat.lt_or_ge i k with h2 | h2 <;>
    simp [h, h2, Nat.not_le.mpr, Nat.not_lt.mpr]

theorem testBit_shr {x k i : Nat} : (x >>> k).testBit i = x.testBit (k + i) :=
  Nat.testBit_shiftRight x

theorem land_lt_two_pow {x y : Nat} (hx : x < 2 ^ 64) : x &&& y < 2 ^ 64 :=
  Nat.lt_of_le_of_lt Nat.and_le_left hx

theorem land_lt_two_pow' {x y : Nat} (hy : y < 2 ^ 64) : x &&& y < 2 ^ 64 :=
  Nat.lt_of_le_of_lt Nat.and_le_right hy

theorem lor_lt_two_pow {x y : Nat} (hx : x < 2 ^ 64) (hy : y < 2 ^ 64) :
    x ||| y < 2 ^ 64 := Nat.or_lt_two_pow hx hy

theorem bnot64_lt_two_pow {x : Nat} (hx : x < 2 ^ 64) : bnot64 x < 2 ^ 64 :=
  Nat.xor_lt_two_pow hx (by norm_num [mask64])

theorem shl64_lt_two_pow {x k : Nat} : shl64 x k < 2 ^ 64 := by
  rw [shl64]
  exact Nat.mod_lt _ (by norm_num)

theorem shr_lt_two_pow {x k : Nat} (hx : x < 2 ^ 64) : x >>> k < 2 ^ 64 := by
  rw [Nat.shiftRight_eq_div_pow]
  exact Nat.lt_of_le_of_lt (Nat.div_le_self _ _) hx

theorem testBit_ge_64_eq_false {x i : Nat} (hx : x < 2 ^ 64) (h : 64 ≤ i) :
    x.testBit i = false :=
  Nat.testBit_eq_false_of_lt (Nat.lt_of_lt_of_le hx (Nat.pow_le_pow_right (by norm_num) h))

/-! ### The packed move encoding (C6) -/

/-- Decode of `Move.new` for on-board squares, plus the flag and promo bits
it leaves clear. -/
theorem move_new_decode (f t : Fin 64) :
    Move.fromSq (Move.new f.val t.val) = f.val ∧
    Move.toSq (Move.new f.val t.val) = t.val ∧
    Move.promo (Move.new f.val t.val) = none ∧
    Move.is_castle (Move.new f.val t.val) = false ∧
    Move.is_en_passant (Move.new f.val t.val) = false := by
  revert f t
  decide

/-- Decode of an en-passant-flagged `Move.new`. -/
theorem move_ep_decode (f t : Fin 64) :
    Move.fromSq (Move.set_en_passant (Move.new f.val t.val) true) = f.val ∧
    Move.toSq (Move.set_en_passant (Move.new f.val t.val) true) = t.val ∧
    Move.promo (Move.set_en_passant (Move.new f.val t.val) true) = none ∧
    Move.is_castle (Move.set_en_passant (Move.new f.val t.val) true) = false ∧
    Move.is_en_passant (Move.set_en_passant (Move.new f.val t.val) true) = true := by
  revert f t
  decide

/-- Decode of a castle-flagged `Move.new`.  Note the castle bit aliases
promotion code 4, so such a move reads `promo() = Some(Queen)`. -/
theorem move_castle_decode (f t : Fin 64) :
    Move.fromSq (Move.set_castle (Move.new f.val t.val) true) = f.val ∧
    Move.toSq (Move.set_castle (Move.new f.val t.val) true) = t.val ∧
    Move.promo (Move.set_castle (Move.new f.val t.val) true) = some PieceKind.Queen ∧
    Move.is_castle (Move.set_castle (Move.new f.val t.val) true) = true ∧
    Move.is_en_passant (Move.set_castle (Move.new f.val t.val) true) = false := by
  revert f t
  decide

/-- Decode of `Move.with_promo` for each of the four promotion kinds. -/
theorem move_with_promo_decode (f t : Fin 64) :
    (∀ p : PieceKind,
      Move.fromSq (Move.with_promo f.val t.val p) = f.val ∧
      Move.toSq (Move.with_promo f.val t.val p) = t.val ∧
      Move.is_en_passant (Move.with_promo f.val t.val p) = false) ∧
    Move.promo (Move.with_promo f.val t.val PieceKind.Knight) = some PieceKind.Knight ∧
    Move.promo (Move.with_promo f.val t.val PieceKind.Bishop) = some PieceKind.Bishop ∧
    Move.promo (Move.with_promo f.val t.val PieceKind.Rook) = some PieceKind.Rook ∧
    Move.promo (Move.with_promo f.val t.val PieceKind.Queen) = some PieceKind.Queen ∧
    Move.is_castle (Move.with_promo f.val t.val PieceKind.Knight) = false ∧
    Move.is_castle (Move.with_promo f.val t.val PieceKind.Bishop) = false ∧
    Move.is_castle (Move.with_promo f.val t.val PieceKind.Rook) = false ∧
    Move.is_castle (Move.with_promo f.val t.val PieceKind.Queen) = true := by
  revert f t
  decide

/-- C6 counterexample: the claim asserts `is_castle() = false` for every
promotion kind, but a queen promotion (code 4 in bits 12-14) sets bit 14,
which is exactly `CASTLE_FLAG`; at from = 8, to = 0 the constructed move
reads back as a castle. -/
theorem C6_counterexample :
    Move.fromSq (Move.with_promo 8 0 PieceKind.Queen) = 8 ∧
    Move.toSq (Move.with_promo 8 0 PieceKind.Queen) = 0 ∧
    Move.promo (Move.with_promo 8 0 PieceKind.Queen) = some PieceKind.Queen ∧
    Move.is_castle (Move.with_promo 8 0 PieceKind.Queen) = true := by
  decide

/-- C6, amended: for all from/to squares, `with_promo` round-trips the three
fields and leaves the en-passant flag clear for every promotion kind, and
leaves the castle flag clear for knight, bishop and rook promotions; a queen
promotion (code 4) aliases the castle flag, which then reads true. -/
theorem C6_move_encoding (f t : Fin 64) :
    (Move.fromSq (Move.with_promo f.val t.val PieceKind.Knight) = f.val ∧
     Move.toSq (Move.with_promo f.val t.val PieceKind.Knight) = t.val ∧
     Move.promo (Move.with_promo f.val t.val PieceKind.Knight) = some PieceKind.Knight ∧
     Move.is_castle (Move.with_promo f.val t.val PieceKind.Knight) = false ∧
     Move.is_en_passant (Move.with_promo f.val t.val PieceKind.Knight) = false) ∧
    (Move.fromSq (Move.with_promo f.val t.val PieceKind.Bishop) = f.val ∧
     Move.toSq (Move.with_promo f.val t.val PieceKind.Bishop) = t.val ∧
     Move.promo (Move.with_promo f.val t.val PieceKind.Bishop) = some PieceKind.Bishop ∧
     Move.is_castle (Move.with_promo f.val t.val PieceKind.Bishop) = false ∧
     Move.is_en_passant (Move.with_promo f.val t.val PieceKind.Bishop) = false) ∧
    (Move.fromSq (Move.with_promo f.val t.val PieceKind.Rook) = f.val ∧
     Move.toSq (Move.with_promo f.val t.val PieceKind.Rook) = t.val ∧
     Move.promo (Move.with_promo f.val t.val PieceKind.Rook) = some PieceKind.Rook ∧
     Move.is_castle (Move.with_promo f.val t.val PieceKind.Rook) = false ∧
     Move.is_en_passant (Move.with_promo f.val t.val PieceKind.Rook) = false) ∧
    (Move.fromSq (Move.with_promo f.val t.val PieceKind.Queen) = f.val ∧
     Move.toSq (Move.with_promo f.val t.val PieceKind.Queen) = t.val ∧
     Move.promo (Move.with_promo f.val t.val PieceKind.Queen) = some PieceKind.Queen ∧
     Move.is_castle (Move.with_promo f.val t.val PieceKind.Queen) = true ∧
     Move.is_en_passant (Move.with_promo f.val t.val PieceKind.Queen) = false) := by
  revert f t
  decide

/-! ### Insufficient material (C9) -/

theorem piece_at_lt (pos : Position) {s : Nat} (h : s < 64) :
    pos.piece_at s = pos.board ⟨s, h⟩ := by
  simp [Position.piece_at, h]

/-- The material loop computes the per-color knight/bishop counts, the
light-square flags, and the other-piece flag. -/
theorem insuff_foldl (pos : Position) (l : List Nat) (wn wb bn bb : Nat)
    (wbl bbl oth : Bool) :
    l.foldl (insuffStep pos) (wn, wb, wbl, bn, bb, bbl, oth) =
      (wn + l.countP (cntP pos Color.White PieceKind.Knight),
       wb + l.countP (cntP pos Color.White PieceKind.Bishop),
       wbl || l.any (bolP pos Color.White),
       bn + l.countP (cntP pos Color.Black PieceKind.Knight),
       bb + l.countP (cntP pos Color.Black PieceKind.Bishop),
       bbl || l.any (bolP pos Color.Black),
       oth || l.any (othP pos)) := by
  induction l generalizing wn wb bn bb wbl bbl oth with
  | nil => simp
  | cons a l ih =>
    rw [List.foldl_cons]
    rcases h : pos.piece_at a with _ | ⟨c, k⟩
    · simp only [insuffStep, h]
      rw [ih]
      simp [List.countP_cons, List.any_cons, cntP, bolP, othP, h]
    · cases c <;> cases k
      all_goals simp only [insuffStep, h]
      all_goals try simp only [reduceCtorEq, if_true, if_false, ite_true,
        ite_false, reduceIte]
      all_goals rw [ih]
      all_goals simp [List.countP_cons, List.any_cons, cntP, bolP, othP, h,
        Prod.mk.injEq]
      all_goals repeat' apply And.intro
      all_goals first
        | rfl
        | omega
        | simp [Bool.or_assoc, lightSq]

theorem pieceCount_eq_countP (pos : Position) (c : Color) (k : PieceKind) :
    pieceCount pos c k = (List.range 64).countP (cntP pos c k) := by
  rw [pieceCount, List.countP_eq_length_filter]
  rfl

theorem countP_one_unique {p : Nat → Bool} {l : List Nat} (h : l.countP p = 1) :
    ∃ a, a ∈ l ∧ p a = true ∧ ∀ b ∈ l, p b = true → b = a := by
  induction l with
  | nil => simp at h
  | cons x l ih =>
    rw [List.countP_cons] at h
    by_cases hx : p x = true
    · simp [hx] at h
      refine ⟨x, List.mem_cons_self x l, hx, ?_⟩
      intro b hb _hpb
      rcases List.mem_cons.mp hb with hb | hb
      · exact hb
      · exact absurd _hpb (by simp [h b hb])
    · simp [hx] at h
      obtain ⟨a, ha, hpa, huniq⟩ := ih h
      refine ⟨a, List.mem_cons_of_mem _ ha, hpa, ?_⟩
      intro b hb hpb
      rcases List.mem_cons.mp hb with hb | hb
      · subst hb; exact absurd hpb hx
      · exact huniq b hb hpb

theorem any_bolP_of_unique (pos : Position) (c : Color) {l : List Nat} {s0 : Nat}
    (hmem : s0 ∈ l) (hp : cntP pos c PieceKind.Bishop s0 = true)
    (huniq : ∀ b ∈ l, cntP pos c PieceKind.Bishop b = true → b = s0) :
    l.any (bolP pos c) = lightSq s0 := by
  cases hl : lightSq s0 with
  | true =>
    apply List.any_eq_true.mpr
    exact ⟨s0, hmem, by simp [bolP, hp, hl]⟩
  | false =>
    apply List.any_eq_false.mpr
    intro b hb
    simp only [bolP, Bool.and_eq_true, not_and]
    intro hcb
    have := huniq b hb hcb
    subst this
    simp [hl]

theorem lightSq_iff_parity {a b : Nat} :
    lightSq a = lightSq b ↔ (a % 8 + a / 8) % 2 = (b % 8 + b / 8) % 2 := by
  simp only [lightSq]
  constructor
  · intro h
    by_cases ha : (a / 8 + a % 8) % 2 = 1 <;> by_cases hb : (b / 8 + b % 8) % 2 = 1 <;>
      simp [ha, hb] at h ⊢ <;> omega
  · intro h
    by_cases ha : (a / 8 + a % 8) % 2 = 1 <;> by_cases hb : (b / 8 + b % 8) % 2 = 1 <;>
      simp [ha, hb] <;> omega

/-- C9 counterexample: in K+B+N vs K+B with both bishops on dark squares the
claim's predicate (no P/R/Q, and "exactly one bishop on each side with both
bishops on same-colored squares") holds, yet `is_insufficient_material`
returns false because a knight remains. -/
theorem C9_counterexample :
    insufficientClaim C9cexPos ∧ C9cexPos.is_insufficient_material = false := by
  decide

/-- C9, amended: `is_insufficient_material` returns true iff no pawns,
rooks, or queens remain and either (a) no minor piece, (b) exactly one minor
piece in total, or (c) no knights and exactly one bishop on each side with
both bishops on same-colored squares. -/
theorem C9_insufficient_material_iff (pos : Position) :
    pos.is_insufficient_material = true ↔ insufficientAmended pos := by
  rw [Position.is_insufficient_material]
  rw [insuff_foldl pos (List.range 64) 0 0 0 0 false false false]
  simp only [Nat.zero_add, Bool.false_or]
  set r := List.range 64 with hr
  set wn := r.countP (cntP pos Color.White PieceKind.Knight) with hwn
  set wb := r.countP (cntP pos Color.White PieceKind.Bishop) with hwb
  set bn := r.countP (cntP pos Color.Black PieceKind.Knight) with hbn
  set bb := r.countP (cntP pos Color.Black PieceKind.Bishop) with hbb
  set wbl := r.any (bolP pos Color.White) with hwbl
  set bbl := r.any (bolP pos Color.Black) with hbbl
  set oth := r.any (othP pos) with hoth
  by_cases ho : oth = true
  · -- a pawn, rook or queen exists: both sides false
    simp only [ho, if_true]
    constructor
    · intro hF; exact absurd hF (by simp)
    · intro hA
      exfalso
      obtain ⟨s, hs, hps⟩ := List.any_eq_true.mp ho
      rcases hpc : pos.piece_at s with _ | pc
      · rw [othP, hpc] at hps; simp at hps
      · rw [othP, hpc] at hps
        have hk := of_decide_eq_true hps
        obtain ⟨c, k⟩ := pc
        have hcount : 0 < r.countP (cntP pos c k) :=
          List.countP_pos_iff.mpr ⟨s, hs, by simp [cntP, hpc]⟩
        obtain ⟨hp0, hr0, hq0⟩ := hA.1 c
        rw [pieceCount_eq_countP, ← hr] at hp0 hr0 hq0
        rcases hk with hk | hk | hk <;> subst hk <;> omega
  · -- no pawn, rook or queen
    have ho' : oth = false := by revert ho; cases oth <;> simp
    simp only [ho', if_false, Bool.false_eq_true]
    have hfirst : ∀ c, pieceCount pos c PieceKind.Pawn = 0 ∧
        pieceCount pos c PieceKind.Rook = 0 ∧ pieceCount pos c PieceKind.Queen = 0 := by
      intro c
      have hall := List.any_eq_false.mp ho'
      refine ⟨?_, ?_, ?_⟩ <;>
        · rw [pieceCount_eq_countP]
          apply List.countP_eq_zero.mpr
          intro s hs
          intro hcnt
          have hpc := of_decide_eq_true hcnt
          have := hall s hs
          rw [othP, hpc] at this
          simp at this
    constructor
    · intro hcode
      refine ⟨hfirst, ?_⟩
      simp only [pieceCount_eq_countP, ← hr, ← hwn, ← hwb, ← hbn, ← hbb]
      by_cases h1 : wn + bn = 0 ∧ wb + bb = 0
      · left; omega
      · by_cases h2 : wn + bn + (wb + bb) = 1
        · right; left; omega
        · by_cases h3 : wn + bn = 0 ∧ wb = 1 ∧ bb = 1 ∧ wbl = bbl
          · right; right
            obtain ⟨h30, h31, h32, h33⟩ := h3
            refine ⟨by omega, by omega, h31, h32, ?_⟩
            obtain ⟨s0, hs0m, hs0p, hs0u⟩ := countP_one_unique (hwb ▸ h31)
            obtain ⟨s1, hs1m, hs1p, hs1u⟩ := countP_one_unique (hbb ▸ h32)
            have hw : wbl = lightSq s0 := any_bolP_of_unique pos _ hs0m hs0p hs0u
            have hb : bbl = lightSq s1 := any_bolP_of_unique pos _ hs1m hs1p hs1u
            intro s s' hsw hsb
            have hs64 : s0 < 64 := List.mem_range.mp hs0m
            have hs64' : s1 < 64 := List.mem_range.mp hs1m
            have hseq : s.val = s0 := by
              apply hs0u s.val (List.mem_range.mpr s.isLt)
              simp [cntP, piece_at_lt pos s.isLt, hsw]
            have hseq' : s'.val = s1 := by
              apply hs1u s'.val (List.mem_range.mpr s'.isLt)
              simp [cntP, piece_at_lt pos s'.isLt, hsb]
            rw [hseq, hseq']
            exact lightSq_iff_parity.mp (by rw [← hw, ← hb, h33])
          · exfalso
            rw [if_neg h1, if_neg h2, if_neg h3] at hcode
            exact absurd hcode (by simp)
    · rintro ⟨_, hrest⟩
      simp only [pieceCount_eq_countP, ← hr, ← hwn, ← hwb, ← hbn, ← hbb] at hrest
      rcases hrest with h1 | h2 | h3
      · have : wn + bn = 0 ∧ wb + bb = 0 := by omega
        simp [this]
      · by_cases h1 : wn + bn = 0 ∧ wb + bb = 0
        · simp [h1]
        · have : wn + bn + (wb + bb) = 1 := by omega
          simp [h1, this]
      · obtain ⟨hwn0, hbn0, hwb1, hbb1, hpar⟩ := h3
        obtain ⟨s0, hs0m, hs0p, hs0u⟩ := countP_one_unique (hwb ▸ hwb1)
        obtain ⟨s1, hs1m, hs1p, hs1u⟩ := countP_one_unique (hbb ▸ hbb1)
        have hw : wbl = lightSq s0 := any_bolP_of_unique pos _ hs0m hs0p hs0u
        have hb : bbl = lightSq s1 := any_bolP_of_unique pos _ hs1m hs1p hs1u
        have hs64 : s0 < 64 := List.mem_range.mp hs0m
        have hs64' : s1 < 64 := List.mem_range.mp hs1m
        have hpareq : (s0 % 8 + s0 / 8) % 2 = (s1 % 8 + s1 / 8) % 2 := by
          have h0 := hs0p
          have h1' := hs1p
          simp only [cntP, decide_eq_true_eq, piece_at_lt pos hs64] at h0
          simp only [cntP, decide_eq_true_eq, piece_at_lt pos hs64'] at h1'
          exact hpar ⟨s0, hs64⟩ ⟨s1, hs64'⟩ h0 h1'
        have h33 : wbl = bbl := by rw [hw, hb]; exact lightSq_iff_parity.mpr hpareq
        by_cases h1 : wn + bn = 0 ∧ wb + bb = 0
        · simp [h1]
        · by_cases h2 : wn + bn + (wb + bb) = 1
          · simp [h1, h2]
          · have hc : wn + bn = 0 ∧ wb = 1 ∧ bb = 1 ∧ wbl = bbl :=
              ⟨by omega, hwb1, hbb1, h33⟩
            simp [h1, h2, hc]

/-! ### Negamax terminal ordering (C4) -/

/-- C4: when the time poll at the node is negative, negamax applies its
terminal checks in order — fifty-move rule first, then threefold repetition
(the current key being the last history entry, or the position's hash when
the history is empty), then insufficient material, then
checkmate/stalemate on an empty move list, and only then the depth-0
evaluation; in particular a position with no legal moves but halfmove clock
at 100 scores 0, not -100000. -/
theorem C4_negamax_terminal_order (tcStop : Nat → Bool) (pos : Position)
    (depth : Nat) (alpha beta : Int) (history : List Nat) (nodes : Nat)
    (hstop : tcStop nodes = false) :
    (pos.halfmove_clock ≥ 100 →
      negamax tcStop pos depth alpha beta history nodes = (0, false, nodes)) ∧
    (pos.halfmove_clock < 100 →
      3 ≤ (history.filter (· = history.getLast?.getD pos.position_hash)).length →
      negamax tcStop pos depth alpha beta history nodes = (0, false, nodes)) ∧
    (pos.halfmove_clock < 100 →
      (history.filter (· = history.getLast?.getD pos.position_hash)).length < 3 →
      pos.is_insufficient_material = true →
      negamax tcStop pos depth alpha beta history nodes = (0, false, nodes)) ∧
    (pos.halfmove_clock < 100 →
      (history.filter (· = history.getLast?.getD pos.position_hash)).length < 3 →
      pos.is_insufficient_material = false →
      legal_moves pos = [] →
      (pos.in_check pos.side_to_move = true →
        negamax tcStop pos depth alpha beta history nodes = (-100000, false, nodes)) ∧
      (pos.in_check pos.side_to_move = false →
        negamax tcStop pos depth alpha beta history nodes = (0, false, nodes))) ∧
    (pos.halfmove_clock < 100 →
      (history.filter (· = history.getLast?.getD pos.position_hash)).length < 3 →
      pos.is_insufficient_material = false →
      legal_moves pos ≠ [] →
      depth = 0 →
      negamax tcStop pos depth alpha beta history nodes = (evaluate pos, false, nodes)) ∧
    (legal_moves pos = [] → pos.halfmove_clock ≥ 100 →
      (negamax tcStop pos depth alpha beta history nodes).1 = 0) := by
  refine ⟨?_, ?_, ?_, ?_, ?_, ?_⟩
  · intro h
    rw [negamax]
    simp [hstop, Position.is_fifty_move_draw, h]
  · intro h hrep
    rw [negamax]
    simp [hstop, Position.is_fifty_move_draw, Nat.not_le.mpr h, hrep]
  · intro h hrep hins
    rw [negamax]
    simp [hstop, Position.is_fifty_move_draw, Nat.not_le.mpr h,
      Nat.not_le.mpr hrep, hins]
  · intro h hrep hins hmov
    constructor <;> intro hchk <;>
      · rw [negamax]
        simp [hstop, Position.is_fifty_move_draw, Nat.not_le.mpr h,
          Nat.not_le.mpr hrep, hins, hmov, hchk]
  · intro h hrep hins hmov hd
    rw [negamax]
    simp [hstop, Position.is_fifty_move_draw, Nat.not_le.mpr h,
      Nat.not_le.mpr hrep, hins, List.isEmpty_iff, hmov, hd]
  · intro _ h
    rw [negamax]
    simp [hstop, Position.is_fifty_move_draw, h]

theorem C4_negamax_terminal_order_witness :
    (fun _ : Nat => false) 0 = false ∧ C4pos.halfmove_clock ≥ 100 ∧
    negamax (fun _ => false) C4pos 5 (-10) 10 [] 0 = (0, false, 0) :=
  ⟨rfl, by decide,
    (C4_negamax_terminal_order (fun _ => false) C4pos 5 (-10) 10 [] 0 rfl).1
      (by decide)⟩

/-! ### The UCI move parser bug (C7) -/

/-- C7: at `C7pos` (white Ka1, Pa2 vs black Kh2) the text `a2a3q` matches
the legal non-promotion move a2a3, and the parser overwrites the move's
promo field before its (consequently always-false) mismatch test, returning
a move with promotion bits — value 17416 = a2a3 + promo-code 4 — that is
not a legal move of the position and, promo code 4 aliasing the castle
bit, even reads as a castle.  The claim (and the parser's own comment
"Must match promotion if present") requires `None` here. -/
theorem C7_parse_uci_bug :
    parse_uci_move C7pos C7text = some 17416 ∧
    17416 ∉ legal_moves C7pos ∧
    Move.is_castle 17416 = true ∧
    Move.promo 17416 = some PieceKind.Queen := by
  decide

/-! ### C8: the FEN parser fails loudly — except on the en-passant field -/

/-- A monadic fold over `Option` fails if any list element makes the step
function fail from every state. -/
theorem foldlM_none_of_mem {α β : Type} (f : β → α → Option β) {l : List α} {x : α}
    (hx : x ∈ l) (hf : ∀ b, f b x = none) (b0 : β) : l.foldlM f b0 = none := by
  induction l generalizing b0 with
  | nil => simp at hx
  | cons a l ih =>
    rw [List.foldlM_cons]
    rcases List.mem_cons.mp hx with h | h
    · subst h
      rw [hf b0]
      rfl
    · cases hfa : f b0 a with
      | none => rfl
      | some b => simpa using ih h b

/-- A successful `fenRankStep` consumed a valid FEN character and advanced
the file counter by the digit value or by one. -/
theorem fenRankStep_some {rank : Int} {st st' : (Fin 64 → Option Piece) × Int}
    {ch : Char} (h : fenRankStep rank st ch = some st') :
    validFenChar ch = true ∧
    st'.2 = st.2 + ((if ch.isDigit then ch.toNat - '0'.toNat else 1 : Nat) : Int) := by
  obtain ⟨b0, f0⟩ := st
  rw [fenRankStep] at h
  obtain ⟨next, hnext, hcheck⟩ := Option.bind_eq_some.mp h
  have hst' : st' = next := by
    by_cases hle : next.2 ≤ 8
    · rw [if_pos hle] at hcheck
      exact (Option.some_inj.mp hcheck).symm
    · rw [if_neg hle] at hcheck
      exact absurd hcheck (by simp)
  subst hst'
  by_cases hd : ch.isDigit
  · rw [if_pos hd] at hnext
    have := Option.some_inj.mp hnext
    rw [← this]
    exact ⟨by simp [validFenChar, hd], by simp [hd]⟩
  · rw [if_neg hd] at hnext
    simp only at hnext
    split at hnext
    · exact absurd hnext (by simp)
    · rename_i kind heq
      have hval : validFenChar ch = true := by
        by_contra hval
        simp only [validFenChar, Bool.or_eq_true, decide_eq_true_eq, not_or,
          Bool.not_eq_true] at hval
        obtain ⟨_, h1, h2, h3, h4, h5, h6⟩ := hval
        rw [if_neg h1, if_neg h2, if_neg h3, if_neg h4, if_neg h5, if_neg h6] at heq
        exact absurd heq (by simp)
      refine ⟨hval, ?_⟩
      split at hnext
      · exact absurd hnext (by simp)
      · split at hnext
        · have := Option.some_inj.mp hnext
          rw [← this]
          simp [hd]
        · exact absurd hnext (by simp)

/-- Over any character list, a successful fold of `fenRankStep` means every
character was valid and the file advanced by the total file sum. -/
theorem fenRank_fold_aux (rank : Int) (cs : List Char) :
    ∀ (b0 : Fin 64 → Option Piece) (fl0 : Int) (out : (Fin 64 → Option Piece) × Int),
      cs.foldlM (fenRankStep rank) (b0, fl0) = some out →
      cs.all validFenChar = true ∧
      out.2 = fl0 +
        (((cs.map (fun ch => if ch.isDigit then ch.toNat - '0'.toNat else 1)).sum : Nat) : Int) := by
  induction cs with
  | nil =>
    intro b0 fl0 out h
    simp only [List.foldlM_nil] at h
    have := Option.some_inj.mp h
    simp [← this]
  | cons a cs ih =>
    intro b0 fl0 out h
    rw [List.foldlM_cons] at h
    obtain ⟨mid, hmid, hrest⟩ := Option.bind_eq_some.mp h
    obtain ⟨hva, hsnd⟩ := fenRankStep_some hmid
    obtain ⟨mb, mf⟩ := mid
    obtain ⟨hvcs, hout⟩ := ih mb mf out hrest
    refine ⟨by simp [hva, hvcs], ?_⟩
    rw [hout]
    simp only at hsnd
    rw [hsnd]
    rw [List.map_cons, List.sum_cons]
    push_cast
    ring

/-- A rank string accepted by `fenRank` consists of valid FEN characters
and covers exactly 8 files. -/
theorem fenRank_some_valid {board0 : Fin 64 → Option Piece} {rank : Int}
    {s : String} {board' : Fin 64 → Option Piece}
    (h : fenRank board0 rank s = some board') :
    s.data.all validFenChar = true ∧ fileSum s = 8 := by
  rw [fenRank] at h
  rcases hf : s.data.foldlM (fenRankStep rank) (board0, 0) with _ | bf
  · rw [hf] at h; exact absurd h (by simp)
  · rw [hf] at h
    obtain ⟨b, fl⟩ := bf
    obtain ⟨hall, hsum⟩ := fenRank_fold_aux rank s.data board0 0 (b, fl) hf
    simp only at h hsum
    split at h
    · rename_i h8
      refine ⟨hall, ?_⟩
      rw [fileSum]
      omega
    · exact absurd h (by simp)

/-- A malformed rank string (an invalid character, or a file sum other
than 8) makes `fenRank` fail. -/
theorem fenRank_none_of_malformed {rank : Int} {s : String}
    (hbad : ¬ (s.data.all validFenChar = true ∧ fileSum s = 8))
    (b0 : Fin 64 → Option Piece) : fenRank b0 rank s = none := by
  rcases hf : fenRank b0 rank s with _ | b
  · rfl
  · exact absurd (fenRank_some_valid hf) hbad

/-- An invalid castling character makes `castleStep` fail. -/
theorem castleStep_none {ch : Char}
    (hch : ch ≠ 'K' ∧ ch ≠ 'Q' ∧ ch ≠ 'k' ∧ ch ≠ 'q') (c : CastlingRights) :
    castleStep c ch = none := by
  rw [castleStep, if_neg hch.1, if_neg hch.2.1, if_neg hch.2.2.1, if_neg hch.2.2.2]

/-- A non-numeric clock field makes `parseU32` fail. -/
theorem parseU32_none_of_nonnumeric {s : String}
    (h : ¬ (stripPlus s.data ≠ [] ∧ (stripPlus s.data).all Char.isDigit = true)) :
    parseU32 s = none := by
  rw [parseU32]
  simp only
  rw [if_neg]
  intro hc
  exact h ⟨hc.1, hc.2⟩

/-- C8: `from_fen` fails loudly on fewer than four fields, a wrong number
of ranks, a malformed rank (invalid letter or wrong file count), an
invalid side-to-move, an invalid castling character, and a non-numeric
clock field; but on the en-passant field the claim fails: a field that is
neither `-` nor a valid coordinate is silently defaulted — the parse
still succeeds and `en_passant` is just `coord_to_sq ep`, which is `none`
for an invalid coordinate, indistinguishable from a genuine `-`. -/
theorem C8_from_fen_failures (fen : String) :
    (∀ l, splitWs fen = l → l.length < 4 →
      from_fen fen = none) ∧
    (∀ bp sp cp ep rest,
      splitWs fen = bp :: sp :: cp :: ep :: rest →
      (((splitCh bp (· = '/')).length ≠ 8 → from_fen fen = none) ∧
       (∀ r, r ∈ splitCh bp (· = '/') →
         ¬ (r.data.all validFenChar = true ∧ fileSum r = 8) → from_fen fen = none) ∧
       (sp ≠ "w" → sp ≠ "b" → from_fen fen = none) ∧
       (∀ ch, ch ∈ cp.data → ch ≠ 'K' → ch ≠ 'Q' → ch ≠ 'k' → ch ≠ 'q' →
         cp ≠ "-" → from_fen fen = none) ∧
       (¬ (stripPlus ((rest.get? 0).getD zeroText).data ≠ [] ∧
           (stripPlus ((rest.get? 0).getD zeroText).data).all Char.isDigit = true) →
         from_fen fen = none) ∧
       (¬ (stripPlus ((rest.get? 1).getD oneText).data ≠ [] ∧
           (stripPlus ((rest.get? 1).getD oneText).data).all Char.isDigit = true) →
         from_fen fen = none) ∧
       (∀ pos, from_fen fen = some pos →
         pos.en_passant = (if ep = "-" then none else coord_to_sq ep)))) := by
  constructor
  · intro l hl hlen
    rcases l with _ | ⟨a, _ | ⟨b, _ | ⟨c, _ | ⟨d, e⟩⟩⟩⟩
    · rw [from_fen, hl]
    · rw [from_fen, hl]
    · rw [from_fen, hl]
    · rw [from_fen, hl]
    · simp at hlen; omega
  · intro bp sp cp ep rest hparts
    have hff : from_fen fen =
        (if (splitCh bp (· = '/')).length = 8 then
          ((splitCh bp (· = '/')).enum.foldlM
              (fun board ri => fenRank board (7 - (ri.1 : Int)) ri.2)
              (fun _ => none)).bind (fun board =>
            (if sp = "w" then some Color.White
             else if sp = "b" then some Color.Black else none).bind (fun side =>
              (if cp = "-" then
                some { wk := false, wq := false, bk := false, bq := false }
              else
                cp.data.foldlM castleStep
                  { wk := false, wq := false, bk := false, bq := false }).bind (fun castling =>
                (parseU32 ((rest.get? 0).getD zeroText)).bind (fun hmc =>
                  (parseU32 ((rest.get? 1).getD oneText)).bind (fun fmn =>
                    some { board := board,
                           bitboards := (List.range 64).foldl
                             (fun bbs sq =>
                               if h : sq < 64 then
                                 match board ⟨sq, h⟩ with
                                 | some piece => bbs.set sq piece
                                 | none => bbs
                               else bbs)
                             { by_color := fun _ => 0, by_piece := fun _ _ => 0 },
                           side_to_move := side, castling := castling,
                           en_passant := if ep = "-" then none else coord_to_sq ep,
                           halfmove_clock := hmc, fullmove_number := fmn })))))
        else none) := by
      rw [from_fen, hparts]
    rw [hff]
    set ranks := splitCh bp (· = '/') with hranks
    refine ⟨?_, ?_, ?_, ?_, ?_, ?_, ?_⟩
    · intro h8
      rw [if_neg h8]
    · intro r hr hbad
      by_cases h8 : ranks.length = 8
      · rw [if_pos h8]
        obtain ⟨i, hget⟩ := List.mem_iff_get.mp hr
        have hmemenum : (i.val, r) ∈ ranks.enum := by
          apply List.mem_enum_iff_get?.mpr
          rw [List.get?_eq_get i.isLt, hget]
        have hfold : ranks.enum.foldlM
            (fun board ri => fenRank board (7 - (ri.1 : Int)) ri.2)
            (fun _ => none) = none := by
          apply foldlM_none_of_mem _ hmemenum
          intro b
          exact fenRank_none_of_malformed hbad b
        rw [hfold]
        rfl
      · rw [if_neg h8]
    · intro hw hb
      by_cases h8 : ranks.length = 8
      · rw [if_pos h8]
        rcases hfold : ranks.enum.foldlM
            (fun board ri => fenRank board (7 - (ri.1 : Int)) ri.2)
            (fun _ => none) with _ | b
        all_goals try rw [hfold]
        · rfl
        rw [Option.some_bind, if_neg hw, if_neg hb]
        rfl
      · rw [if_neg h8]
    · intro ch hch hK hQ hk hq hdash
      by_cases h8 : ranks.length = 8
      · rw [if_pos h8]
        rcases hfold : ranks.enum.foldlM
            (fun board ri => fenRank board (7 - (ri.1 : Int)) ri.2)
            (fun _ => none) with _ | b
        all_goals try rw [hfold]
        · rfl
        rw [Option.some_bind]
        rcases hstm : (if sp = "w" then some Color.White
            else if sp = "b" then some Color.Black else none) with _ | side
        all_goals try rw [hstm]
        · rfl
        rw [Option.some_bind, if_neg hdash,
          foldlM_none_of_mem castleStep hch (castleStep_none ⟨hK, hQ, hk, hq⟩)]
        rfl
      · rw [if_neg h8]
    · intro hnum
      by_cases h8 : ranks.length = 8
      · rw [if_pos h8]
        rcases hfold : ranks.enum.foldlM
            (fun board ri => fenRank board (7 - (ri.1 : Int)) ri.2)
            (fun _ => none) with _ | b
        all_goals try rw [hfold]
        · rfl
        rw [Option.some_bind]
        rcases hstm : (if sp = "w" then some Color.White
            else if sp = "b" then some Color.Black else none) with _ | side
        all_goals try rw [hstm]
        · rfl
        rw [Option.some_bind]
        rcases hcast : (if cp = "-" then
            some { wk := false, wq := false, bk := false, bq := false }
          else cp.data.foldlM castleStep
            { wk := false, wq := false, bk := false, bq := false }) with _ | castling
        all_goals try rw [hcast]
        · rfl
        rw [Option.some_bind, parseU32_none_of_nonnumeric hnum]
        rfl
      · rw [if_neg h8]
    · intro hnum
      by_cases h8 : ranks.length = 8
      · rw [if_pos h8]
        rcases hfold : ranks.enum.foldlM
            (fun board ri => fenRank board (7 - (ri.1 : Int)) ri.2)
            (fun _ => none) with _ | b
        all_goals try rw [hfold]
        · rfl
        rw [Option.some_bind]
        rcases hstm : (if sp = "w" then some Color.White
            else if sp = "b" then some Color.Black else none) with _ | side
        all_goals try rw [hstm]
        · rfl
        rw [Option.some_bind]
        rcases hcast : (if cp = "-" then
            some { wk := false, wq := false, bk := false, bq := false }
          else cp.data.foldlM castleStep
            { wk := false, wq := false, bk := false, bq := false }) with _ | castling
        all_goals try rw [hcast]
        · rfl
        rw [Option.some_bind]
        rcases hhmc : parseU32 ((rest.get? 0).getD zeroText) with _ | hmc
        all_goals try rw [hhmc]
        · rfl
        rw [Option.some_bind, parseU32_none_of_nonnumeric hnum]
        rfl
      · rw [if_neg h8]
    · intro pos hpos
      by_cases h8 : ranks.length = 8
      · rw [if_pos h8] at hpos
        rcases hfold : ranks.enum.foldlM
            (fun board ri => fenRank board (7 - (ri.1 : Int)) ri.2)
            (fun _ => none) with _ | b
        all_goals try rw [hfold] at hpos
        · exact absurd hpos (by simp)
        rw [Option.some_bind] at hpos
        rcases hstm : (if sp = "w" then some Color.White
            else if sp = "b" then some Color.Black else none) with _ | side
        all_goals try rw [hstm] at hpos
        · exact absurd hpos (by simp)
        rw [Option.some_bind] at hpos
        rcases hcast : (if cp = "-" then
            some { wk := false, wq := false, bk := false, bq := false }
          else cp.data.foldlM castleStep
            { wk := false, wq := false, bk := false, bq := false }) with _ | castling
        all_goals try rw [hcast] at hpos
        · exact absurd hpos (by simp)
        rw [Option.some_bind] at hpos
        rcases hhmc : parseU32 ((rest.get? 0).getD zeroText) with _ | hmc
        all_goals try rw [hhmc] at hpos
        · exact absurd hpos (by simp)
        rw [Option.some_bind] at hpos
        rcases hfmn : parseU32 ((rest.get? 1).getD oneText) with _ | fmn
        all_goals try rw [hfmn] at hpos
        · exact absurd hpos (by simp)
        rw [Option.some_bind] at hpos
        have := Option.some_inj.mp hpos
        rw [← this]
      · rw [if_neg h8] at hpos
        exact absurd hpos (by simp)

/-- C8 counterexample: the FEN record `fenEpBad` has en-passant field
`zz`, which is neither `-` nor a valid coordinate (`coord_to_sq` rejects
it), yet `from_fen` succeeds and silently returns a position with
`en_passant = none` instead of failing. -/
theorem C8_counterexample :
    (from_fen fenEpBad).map Position.en_passant = some none ∧
    coord_to_sq zzText = none := by
  constructor
  · decide
  · decide

/-- Witness for C8: `from_fen` fails on the concrete record `c8wFen`,
whose side-to-move field is the invalid `x`. -/
theorem C8_from_fen_failures_witness : from_fen c8wFen = none := by
  have h := (C8_from_fen_failures c8wFen).2 c8wBoard xText dashText dashText
    [zeroText, oneText] (by decide)
  exact h.2.2.1 (by decide) (by decide)

/-! ### C3: classical slider ray lookups, and C10: attack-check refinement -/

theorem foldl_or_shl_testBit (f : Nat → Nat) (l : List Nat) (a t : Nat) :
    ((l.foldl (fun bb i => bb ||| (1 <<< f i)) a).testBit t = true) ↔
      (a.testBit t = true ∨ ∃ i ∈ l, t = f i) := by
  induction l generalizing a with
  | nil => simp
  | cons x l ih =>
    rw [List.foldl_cons, ih]
    simp only [Nat.testBit_or, Bool.or_eq_true, testBit_one_shl, decide_eq_true_eq,
      List.mem_cons]
    constructor
    · rintro (⟨h | h⟩ | ⟨i, hi, rfl⟩)
      · exact Or.inl h
      · exact Or.inr ⟨x, Or.inl rfl, h⟩
      · exact Or.inr ⟨i, Or.inr hi, rfl⟩
    · rintro (h | ⟨i, hi | hi, rfl⟩)
      · exact Or.inl (Or.inl h)
      · subst hi; exact Or.inl (Or.inr rfl)
      · exact Or.inr ⟨i, hi, rfl⟩

theorem foldl_or_shl_lt (f : Nat → Nat) (l : List Nat) (a : Nat)
    (ha : a < 2 ^ 64) (hf : ∀ i ∈ l, f i < 64) :
    l.foldl (fun bb i => bb ||| (1 <<< f i)) a < 2 ^ 64 := by
  induction l generalizing a with
  | nil => simpa
  | cons x l ih =>
    rw [List.foldl_cons]
    exact ih _ (lor_lt_two_pow ha (one_shl_lt_two_pow (hf x (List.mem_cons_self x l))))
      (fun i hi => hf i (List.mem_cons_of_mem x hi))

theorem find?_range'_eq_some {p : Nat → Bool} :
    ∀ (n a b : Nat), ((List.range' a n).find? p = some b ↔
      a ≤ b ∧ b < a + n ∧ p b = true ∧ ∀ j, a ≤ j → j < b → p j = false) := by
  intro n
  induction n with
  | zero => intro a b; constructor
            · intro h; simp [List.range'] at h
            · rintro ⟨h1, h2, h3, h4⟩; omega
  | succ n ih =>
    intro a b
    rw [List.range'_succ]
    by_cases hpa : p a
    · rw [List.find?_cons_of_pos _ hpa]
      constructor
      · rintro h
        have hb : b = a := (Option.some_inj.mp h).symm
        subst hb
        exact ⟨Nat.le_refl _, by omega, hpa, fun j h1 h2 => absurd h1 (by omega)⟩
      · rintro ⟨h1, h2, h3, h4⟩
        by_cases hba : b = a
        · rw [hba]
        · exact absurd (h4 a (Nat.le_refl _) (by omega)) (by simp [hpa])
    · rw [List.find?_cons_of_neg _ hpa, ih]
      constructor
      · rintro ⟨h1, h2, h3, h4⟩
        refine ⟨by omega, by omega, h3, fun j hj1 hj2 => ?_⟩
        by_cases hja : j = a
        · rw [hja]; exact Bool.not_eq_true _ ▸ (by simpa using hpa)
        · exact h4 j (by omega) hj2
      · rintro ⟨h1, h2, h3, h4⟩
        have hba : b ≠ a := fun hba => by rw [hba] at h3; exact hpa h3
        exact ⟨by omega, by omega, h3, fun j hj1 hj2 => h4 j (by omega) hj2⟩

theorem find?_range'_reverse_eq_some {p : Nat → Bool} :
    ∀ (n a b : Nat), (((List.range' a n).reverse.find? p = some b) ↔
      a ≤ b ∧ b < a + n ∧ p b = true ∧ ∀ j, b < j → j < a + n → p j = false) := by
  intro n
  induction n with
  | zero => intro a b; constructor
            · intro h; simp [List.range'] at h
            · rintro ⟨h1, h2, h3, h4⟩; omega
  | succ n ih =>
    intro a b
    rw [List.range'_concat, List.reverse_append]
    simp only [List.reverse_singleton, List.singleton_append, Nat.one_mul]
    by_cases hpa : p (a + n)
    · rw [List.find?_cons_of_pos _ hpa]
      constructor
      · rintro h
        have hb : b = a + n := (Option.some_inj.mp h).symm
        subst hb
        exact ⟨by omega, by omega, hpa, fun j h1 h2 => absurd h1 (by omega)⟩
      · rintro ⟨h1, h2, h3, h4⟩
        by_cases hba : b = a + n
        · rw [hba]
        · exact absurd (h4 (a + n) (by omega) (by omega)) (by simp [hpa])
    · rw [List.find?_cons_of_neg _ hpa, ih]
      constructor
      · rintro ⟨h1, h2, h3, h4⟩
        refine ⟨h1, by omega, h3, fun j hj1 hj2 => ?_⟩
        by_cases hja : j = a + n
        · rw [hja]; simpa using hpa
        · exact h4 j hj1 (by omega)
      · rintro ⟨h1, h2, h3, h4⟩
        have hba : b ≠ a + n := fun hba => by rw [hba] at h3; exact hpa h3
        exact ⟨h1, by omega, h3, fun j hj1 hj2 => h4 j hj1 (by omega)⟩

theorem lsb_eq_some_iff {bb b : Nat} :
    Bitboard.lsb bb = some b ↔
      b < 64 ∧ bb.testBit b = true ∧ ∀ j, j < b → bb.testBit j = false := by
  rw [Bitboard.lsb, List.range_eq_range', find?_range'_eq_some]
  constructor
  · rintro ⟨h1, h2, h3, h4⟩
    exact ⟨by omega, h3, fun j hj => h4 j (by omega) hj⟩
  · rintro ⟨h1, h2, h3⟩
    exact ⟨by omega, by omega, h2, fun j _ hj => h3 j hj⟩

theorem lsb_eq_none_iff {bb : Nat} (h : bb < 2 ^ 64) :
    Bitboard.lsb bb = none ↔ bb = 0 := by
  rw [Bitboard.lsb, List.find?_eq_none]
  constructor
  · intro hall
    apply Nat.eq_of_testBit_eq
    intro i
    rw [Nat.zero_testBit]
    by_cases hi : i < 64
    · simpa using hall i (List.mem_range.mpr hi)
    · exact testBit_ge_64_eq_false h (by omega)
  · rintro rfl
    intro i _
    simp [Nat.zero_testBit]

theorem msb_eq_some_iff {bb b : Nat} :
    Bitboard.msb bb = some b ↔
      b < 64 ∧ bb.testBit b = true ∧ ∀ j, b < j → j < 64 → bb.testBit j = false := by
  rw [Bitboard.msb, List.range_eq_range', find?_range'_reverse_eq_some]
  constructor
  · rintro ⟨h1, h2, h3, h4⟩
    exact ⟨by omega, h3, fun j hj1 hj2 => h4 j hj1 (by omega)⟩
  · rintro ⟨h1, h2, h3⟩
    exact ⟨by omega, by omega, h2, fun j hj1 hj2 => h3 j hj1 (by omega)⟩

theorem rayPos_testBit {s L sq t : Nat} :
    (rayPos s L sq).testBit t = true ↔ ∃ i, 1 ≤ i ∧ i ≤ L ∧ t = sq + i * s := by
  rw [rayPos, foldl_or_shl_testBit]
  constructor
  · rintro (h | ⟨i, hi, rfl⟩)
    · rw [Nat.zero_testBit] at h; exact absurd h (by simp)
    · rw [List.mem_range'_1] at hi
      exact ⟨i, hi.1, by omega, rfl⟩
  · rintro ⟨i, h1, h2, rfl⟩
    exact Or.inr ⟨i, List.mem_range'_1.mpr ⟨h1, by omega⟩, rfl⟩

theorem rayNeg_testBit {s L sq t : Nat} :
    (rayNeg s L sq).testBit t = true ↔ ∃ i, 1 ≤ i ∧ i ≤ L ∧ t = sq - i * s := by
  rw [rayNeg, foldl_or_shl_testBit]
  constructor
  · rintro (h | ⟨i, hi, rfl⟩)
    · rw [Nat.zero_testBit] at h; exact absurd h (by simp)
    · rw [List.mem_range'_1] at hi
      exact ⟨i, hi.1, by omega, rfl⟩
  · rintro ⟨i, h1, h2, rfl⟩
    exact Or.inr ⟨i, List.mem_range'_1.mpr ⟨h1, by omega⟩, rfl⟩

theorem rayPos_lt_two_pow {s L sq : Nat}
    (h : ∀ i, 1 ≤ i → i ≤ L → sq + i * s < 64) : rayPos s L sq < 2 ^ 64 := by
  rw [rayPos]
  apply foldl_or_shl_lt _ _ _ (by norm_num)
  intro i hi
  rw [List.mem_range'_1] at hi
  exact h i hi.1 (by omega)

theorem rayNeg_lt_two_pow {s L sq : Nat} (h : sq < 64) : rayNeg s L sq < 2 ^ 64 := by
  rw [rayNeg]
  apply foldl_or_shl_lt _ _ _ (by norm_num)
  intro i _
  omega

theorem posDir_testBit (R : Nat → Nat) (s L sq occ acc t : Nat)
    (hs : 0 < s)
    (hlt : ∀ i, 1 ≤ i → i ≤ L → sq + i * s < 64)
    (hRsq : R sq = rayPos s L sq)
    (hRb : ∀ i, 1 ≤ i → i ≤ L → R (sq + i * s) = rayPos s (L - i) (sq + i * s))
    (ht : t < 64) :
    ((match Bitboard.lsb (R sq &&& occ) with
      | some b => acc ||| (R sq &&& bnot64 (R b))
      | none => acc ||| R sq).testBit t = true) ↔
      (acc.testBit t = true ∨ reachPos s L sq occ t) := by
  have hraylt : R sq < 2 ^ 64 := by rw [hRsq]; exact rayPos_lt_two_pow hlt
  rw [reachPos]
  rcases hlsb : Bitboard.lsb (R sq &&& occ) with _ | b
  · have hz : R sq &&& occ = 0 := (lsb_eq_none_iff (land_lt_two_pow hraylt)).mp hlsb
    have hocc : ∀ i, 1 ≤ i → i ≤ L → occ.testBit (sq + i * s) = false := by
      intro i h1 h2
      cases hoc : occ.testBit (sq + i * s) with
      | false => rfl
      | true =>
        exfalso
        have hb1 : (R sq).testBit (sq + i * s) = true := by
          rw [hRsq, rayPos_testBit]; exact ⟨i, h1, h2, rfl⟩
        have hand : (R sq &&& occ).testBit (sq + i * s) = true := by
          rw [Nat.testBit_and, hb1, hoc]; rfl
        rw [hz, Nat.zero_testBit] at hand
        exact absurd hand (by simp)
    show (acc ||| R sq).testBit t = true ↔ _
    rw [Nat.testBit_or, Bool.or_eq_true, hRsq]
    constructor
    · rintro (h | h)
      · exact Or.inl h
      · rw [rayPos_testBit] at h
        obtain ⟨i, h1, h2, rfl⟩ := h
        exact Or.inr ⟨i, h1, h2, rfl, fun j hj1 hj2 => hocc j hj1 (by omega)⟩
    · rintro (h | ⟨i, h1, h2, rfl, _⟩)
      · exact Or.inl h
      · exact Or.inr (rayPos_testBit.mpr ⟨i, h1, h2, rfl⟩)
  · obtain ⟨hb64, hbbit, hbmin⟩ := lsb_eq_some_iff.mp hlsb
    rw [Nat.testBit_and, Bool.and_eq_true] at hbbit
    obtain ⟨hbray, hbocc⟩ := hbbit
    rw [hRsq] at hbray
    rw [rayPos_testBit] at hbray
    obtain ⟨i0, hi01, hi0L, hb⟩ := hbray
    have hpre : ∀ j, 1 ≤ j → j < i0 → occ.testBit (sq + j * s) = false := by
      intro j h1 h2
      have hjs : j * s < i0 * s := Nat.mul_lt_mul_of_lt_of_le h2 (Nat.le_refl s) hs
      have hlt2 : sq + j * s < b := by omega
      have hmin := hbmin (sq + j * s) hlt2
      rw [Nat.testBit_and] at hmin
      have hray : (R sq).testBit (sq + j * s) = true := by
        rw [hRsq, rayPos_testBit]; exact ⟨j, h1, by omega, rfl⟩
      cases hm : occ.testBit (sq + j * s) with
      | false => rfl
      | true => rw [hray, hm] at hmin; exact absurd hmin (by simp)
    show (acc ||| (R sq &&& bnot64 (R b))).testBit t = true ↔ _
    rw [hb, hRb i0 hi01 hi0L, Nat.testBit_or, Bool.or_eq_true, Nat.testBit_and,
      testBit_bnot64 ht, hRsq]
    constructor
    · rintro (h | h)
      · exact Or.inl h
      · rw [Bool.and_eq_true, Bool.not_eq_eq_eq_not] at h
        obtain ⟨hray, hbeyond⟩ := h
        rw [rayPos_testBit] at hray
        obtain ⟨i, h1, h2, rfl⟩ := hray
        have hile : i ≤ i0 := by
          by_contra hgt
          have hd : (i - i0) * s = i * s - i0 * s := Nat.sub_mul i i0 s
          have hmle : i0 * s ≤ i * s := Nat.mul_le_mul_right s (by omega)
          have hhit : (rayPos s (L - i0) (sq + i0 * s)).testBit (sq + i * s) = true := by
            rw [rayPos_testBit]
            exact ⟨i - i0, by omega, by omega, by omega⟩
          rw [hhit] at hbeyond
          exact absurd hbeyond (by simp)
        exact Or.inr ⟨i, h1, h2, rfl, fun j hj1 hj2 => hpre j hj1 (by omega)⟩
    · rintro (h | ⟨i, h1, h2, rfl, hempty⟩)
      · exact Or.inl h
      · right
        have hile : i ≤ i0 := by
          by_contra hgt
          have := hempty i0 hi01 (by omega)
          rw [← hb] at this
          rw [this] at hbocc
          exact absurd hbocc (by simp)
        rw [Bool.and_eq_true, Bool.not_eq_eq_eq_not]
        refine ⟨by rw [rayPos_testBit]; exact ⟨i, h1, h2, rfl⟩, ?_⟩
        show (rayPos s (L - i0) (sq + i0 * s)).testBit (sq + i * s) = false
        cases hx : (rayPos s (L - i0) (sq + i0 * s)).testBit (sq + i * s) with
        | false => rfl
        | true =>
          exfalso
          rw [rayPos_testBit] at hx
          obtain ⟨k, hk1, hk2, hkeq⟩ := hx
          have hd : (i0 + k) * s = i0 * s + k * s := Nat.add_mul i0 k s
          have heq : i * s = (i0 + k) * s := by omega
          have : i = i0 + k := Nat.eq_of_mul_eq_mul_right hs heq
          omega

theorem msb_eq_none_iff {bb : Nat} (h : bb < 2 ^ 64) :
    Bitboard.msb bb = none ↔ bb = 0 := by
  rw [Bitboard.msb, List.find?_eq_none]
  constructor
  · intro hall
    apply Nat.eq_of_testBit_eq
    intro i
    rw [Nat.zero_testBit]
    by_cases hi : i < 64
    · simpa using hall i (List.mem_reverse.mpr (List.mem_range.mpr hi))
    · exact testBit_ge_64_eq_false h (by omega)
  · rintro rfl
    intro i _
    simp [Nat.zero_testBit]

theorem negDir_testBit (R : Nat → Nat) (s L sq occ acc t : Nat)
    (hs : 0 < s)
    (hsq : sq < 64)
    (hsub : ∀ i, 1 ≤ i → i ≤ L → i * s ≤ sq)
    (hRsq : R sq = rayNeg s L sq)
    (hRb : ∀ i, 1 ≤ i → i ≤ L → R (sq - i * s) = rayNeg s (L - i) (sq - i * s))
    (ht : t < 64) :
    ((if (R sq &&& occ) ≠ 0 then
        match Bitboard.msb (R sq &&& occ) with
        | some b => acc ||| (R sq &&& bnot64 (R b))
        | none => acc ||| R sq
      else acc ||| R sq).testBit t = true) ↔
      (acc.testBit t = true ∨ reachNeg s L sq occ t) := by
  have hraylt : R sq < 2 ^ 64 := by rw [hRsq]; exact rayNeg_lt_two_pow hsq
  rw [reachNeg]
  by_cases hz : R sq &&& occ = 0
  · rw [if_neg (not_not_intro hz)]
    have hocc : ∀ i, 1 ≤ i → i ≤ L → occ.testBit (sq - i * s) = false := by
      intro i h1 h2
      cases hoc : occ.testBit (sq - i * s) with
      | false => rfl
      | true =>
        exfalso
        have hb1 : (R sq).testBit (sq - i * s) = true := by
          rw [hRsq, rayNeg_testBit]; exact ⟨i, h1, h2, rfl⟩
        have hand : (R sq &&& occ).testBit (sq - i * s) = true := by
          rw [Nat.testBit_and, hb1, hoc]; rfl
        rw [hz, Nat.zero_testBit] at hand
        exact absurd hand (by simp)
    rw [Nat.testBit_or, Bool.or_eq_true, hRsq]
    constructor
    · rintro (h | h)
      · exact Or.inl h
      · rw [rayNeg_testBit] at h
        obtain ⟨i, h1, h2, rfl⟩ := h
        exact Or.inr ⟨i, h1, h2, rfl, fun j hj1 hj2 => hocc j hj1 (by omega)⟩
    · rintro (h | ⟨i, h1, h2, rfl, _⟩)
      · exact Or.inl h
      · exact Or.inr (rayNeg_testBit.mpr ⟨i, h1, h2, rfl⟩)
  · rw [if_pos hz]
    rcases hmsb : Bitboard.msb (R sq &&& occ) with _ | b
    · exact absurd ((msb_eq_none_iff (land_lt_two_pow hraylt)).mp hmsb) hz
    obtain ⟨hb64, hbbit, hbmax⟩ := msb_eq_some_iff.mp hmsb
    rw [Nat.testBit_and, Bool.and_eq_true] at hbbit
    obtain ⟨hbray, hbocc⟩ := hbbit
    rw [hRsq] at hbray
    rw [rayNeg_testBit] at hbray
    obtain ⟨i0, hi01, hi0L, hb⟩ := hbray
    have hsub0 : i0 * s ≤ sq := hsub i0 hi01 hi0L
    have hpre : ∀ j, 1 ≤ j → j < i0 → occ.testBit (sq - j * s) = false := by
      intro j h1 h2
      have hjs : j * s < i0 * s := Nat.mul_lt_mul_of_lt_of_le h2 (Nat.le_refl s) hs
      have hgt2 : b < sq - j * s := by omega
      have hmax := hbmax (sq - j * s) hgt2 (by omega)
      rw [Nat.testBit_and] at hmax
      have hray : (R sq).testBit (sq - j * s) = true := by
        rw [hRsq, rayNeg_testBit]; exact ⟨j, h1, by omega, rfl⟩
      cases hm : occ.testBit (sq - j * s) with
      | false => rfl
      | true => rw [hray, hm] at hmax; exact absurd hmax (by simp)
    show (acc ||| (R sq &&& bnot64 (R b))).testBit t = true ↔ _
    rw [hb, hRb i0 hi01 hi0L, Nat.testBit_or, Bool.or_eq_true, Nat.testBit_and,
      testBit_bnot64 ht, hRsq]
    constructor
    · rintro (h | h)
      · exact Or.inl h
      · rw [Bool.and_eq_true, Bool.not_eq_eq_eq_not] at h
        obtain ⟨hray, hbeyond⟩ := h
        rw [rayNeg_testBit] at hray
        obtain ⟨i, h1, h2, rfl⟩ := hray
        have hsubi : i * s ≤ sq := hsub i h1 h2
        have hile : i ≤ i0 := by
          by_contra hgt
          have hd : (i - i0) * s = i * s - i0 * s := Nat.sub_mul i i0 s
          have hmle : i0 * s ≤ i * s := Nat.mul_le_mul_right s (by omega)
          have hhit : (rayNeg s (L - i0) (sq - i0 * s)).testBit (sq - i * s) = true := by
            rw [rayNeg_testBit]
            exact ⟨i - i0, by omega, by omega, by omega⟩
          rw [hhit] at hbeyond
          exact absurd hbeyond (by simp)
        exact Or.inr ⟨i, h1, h2, rfl, fun j hj1 hj2 => hpre j hj1 (by omega)⟩
    · rintro (h | ⟨i, h1, h2, rfl, hempty⟩)
      · exact Or.inl h
      · right
        have hsubi : i * s ≤ sq := hsub i h1 h2
        have hile : i ≤ i0 := by
          by_contra hgt
          have := hempty i0 hi01 (by omega)
          rw [← hb] at this
          rw [this] at hbocc
          exact absurd hbocc (by simp)
        rw [Bool.and_eq_true, Bool.not_eq_eq_eq_not]
        refine ⟨by rw [rayNeg_testBit]; exact ⟨i, h1, h2, rfl⟩, ?_⟩
        show (rayNeg s (L - i0) (sq - i0 * s)).testBit (sq - i * s) = false
        cases hx : (rayNeg s (L - i0) (sq - i0 * s)).testBit (sq - i * s) with
        | false => rfl
        | true =>
          exfalso
          rw [rayNeg_testBit] at hx
          obtain ⟨k, hk1, hk2, hkeq⟩ := hx
          have hd : (i0 + k) * s = i0 * s + k * s := Nat.add_mul i0 k s
          have hks : k * s ≤ sq - i0 * s := by
            have := hsub (i0 + k) (by omega) (by omega)
            omega
          have heq : i * s = (i0 + k) * s := by omega
          have : i = i0 + k := Nat.eq_of_mul_eq_mul_right hs heq
          omega

theorem rays_def0 (x : Nat) : rays 0 x = rayPos 8 (7 - x / 8) x := rfl
theorem rays_def1 (x : Nat) : rays 1 x = rayPos 9 (min (7 - x / 8) (7 - x % 8)) x := rfl
theorem rays_def2 (x : Nat) : rays 2 x = rayPos 1 (7 - x % 8) x := rfl
theorem rays_def3 (x : Nat) : rays 3 x = rayNeg 7 (min (x / 8) (7 - x % 8)) x := rfl
theorem rays_def4 (x : Nat) : rays 4 x = rayNeg 8 (x / 8) x := rfl
theorem rays_def5 (x : Nat) : rays 5 x = rayNeg 9 (min (x / 8) (x % 8)) x := rfl
theorem rays_def6 (x : Nat) : rays 6 x = rayNeg 1 (x % 8) x := rfl
theorem rays_def7 (x : Nat) : rays 7 x = rayPos 7 (min (7 - x / 8) (x % 8)) x := rfl

theorem dir0_testBit (sq occ acc t : Nat) (hsq : sq < 64) (ht : t < 64) :
    ((match Bitboard.lsb (rays 0 sq &&& occ) with
      | some b => acc ||| (rays 0 sq &&& bnot64 (rays 0 b))
      | none => acc ||| rays 0 sq).testBit t = true) ↔
      (acc.testBit t = true ∨ reachPos 8 (7 - sq / 8) sq occ t) := by
  refine posDir_testBit (rays 0) 8 (7 - sq / 8) sq occ acc t (by norm_num)
    (fun i h1 h2 => by omega) (rays_def0 sq) (fun i h1 h2 => ?_) ht
  rw [rays_def0]
  have e0 : (sq + i * 8) / 8 = sq / 8 + i := by omega
  rw [e0]
  all_goals congr 1
  all_goals omega

theorem dir1_testBit (sq occ acc t : Nat) (hsq : sq < 64) (ht : t < 64) :
    ((match Bitboard.lsb (rays 1 sq &&& occ) with
      | some b => acc ||| (rays 1 sq &&& bnot64 (rays 1 b))
      | none => acc ||| rays 1 sq).testBit t = true) ↔
      (acc.testBit t = true ∨ reachPos 9 (min (7 - sq / 8) (7 - sq % 8)) sq occ t) := by
  refine posDir_testBit (rays 1) 9 (min (7 - sq / 8) (7 - sq % 8)) sq occ acc t (by norm_num)
    (fun i h1 h2 => by omega) (rays_def1 sq) (fun i h1 h2 => ?_) ht
  rw [rays_def1]
  have e0 : (sq + i * 9) / 8 = sq / 8 + i := by omega
  have e1 : (sq + i * 9) % 8 = sq % 8 + i := by omega
  rw [e0, e1]
  all_goals congr 1
  all_goals omega

theorem dir2_testBit (sq occ acc t : Nat) (hsq : sq < 64) (ht : t < 64) :
    ((match Bitboard.lsb (rays 2 sq &&& occ) with
      | some b => acc ||| (rays 2 sq &&& bnot64 (rays 2 b))
      | none => acc ||| rays 2 sq).testBit t = true) ↔
      (acc.testBit t = true ∨ reachPos 1 (7 - sq % 8) sq occ t) := by
  refine posDir_testBit (rays 2) 1 (7 - sq % 8) sq occ acc t (by norm_num)
    (fun i h1 h2 => by omega) (rays_def2 sq) (fun i h1 h2 => ?_) ht
  rw [rays_def2]
  have e0 : (sq + i * 1) % 8 = sq % 8 + i := by omega
  rw [e0]
  all_goals congr 1
  all_goals omega

theorem dir7_testBit (sq occ acc t : Nat) (hsq : sq < 64) (ht : t < 64) :
    ((match Bitboard.lsb (rays 7 sq &&& occ) with
      | some b => acc ||| (rays 7 sq &&& bnot64 (rays 7 b))
      | none => acc ||| rays 7 sq).testBit t = true) ↔
      (acc.testBit t = true ∨ reachPos 7 (min (7 - sq / 8) (sq % 8)) sq occ t) := by
  refine posDir_testBit (rays 7) 7 (min (7 - sq / 8) (sq % 8)) sq occ acc t (by norm_num)
    (fun i h1 h2 => by omega) (rays_def7 sq) (fun i h1 h2 => ?_) ht
  rw [rays_def7]
  have e0 : (sq + i * 7) / 8 = sq / 8 + i := by omega
  have e1 : (sq + i * 7) % 8 = sq % 8 - i := by omega
  rw [e0, e1]
  all_goals congr 1
  all_goals omega

theorem dir3_testBit (sq occ acc t : Nat) (hsq : sq < 64) (ht : t < 64) :
    ((if (rays 3 sq &&& occ) ≠ 0 then
        match Bitboard.msb (rays 3 sq &&& occ) with
        | some b => acc ||| (rays 3 sq &&& bnot64 (rays 3 b))
        | none => acc ||| rays 3 sq
      else acc ||| rays 3 sq).testBit t = true) ↔
      (acc.testBit t = true ∨ reachNeg 7 (min (sq / 8) (7 - sq % 8)) sq occ t) := by
  refine negDir_testBit (rays 3) 7 (min (sq / 8) (7 - sq % 8)) sq occ acc t (by norm_num) hsq
    (fun i h1 h2 => by omega) (rays_def3 sq) (fun i h1 h2 => ?_) ht
  rw [rays_def3]
  have e0 : (sq - i * 7) / 8 = sq / 8 - i := by omega
  have e1 : (sq - i * 7) % 8 = sq % 8 + i := by omega
  rw [e0, e1]
  all_goals congr 1
  all_goals omega

theorem dir4_testBit (sq occ acc t : Nat) (hsq : sq < 64) (ht : t < 64) :
    ((if (rays 4 sq &&& occ) ≠ 0 then
        match Bitboard.msb (rays 4 sq &&& occ) with
        | some b => acc ||| (rays 4 sq &&& bnot64 (rays 4 b))
        | none => acc ||| rays 4 sq
      else acc ||| rays 4 sq).testBit t = true) ↔
      (acc.testBit t = true ∨ reachNeg 8 (sq / 8) sq occ t) := by
  refine negDir_testBit (rays 4) 8 (sq / 8) sq occ acc t (by norm_num) hsq
    (fun i h1 h2 => by omega) (rays_def4 sq) (fun i h1 h2 => ?_) ht
  rw [rays_def4]
  have e0 : (sq - i * 8) / 8 = sq / 8 - i := by omega
  rw [e0]
  all_goals congr 1
  all_goals omega

theorem dir5_testBit (sq occ acc t : Nat) (hsq : sq < 64) (ht : t < 64) :
    ((if (rays 5 sq &&& occ) ≠ 0 then
        match Bitboard.msb (rays 5 sq &&& occ) with
        | some b => acc ||| (rays 5 sq &&& bnot64 (rays 5 b))
        | none => acc ||| rays 5 sq
      else acc ||| rays 5 sq).testBit t = true) ↔
      (acc.testBit t = true ∨ reachNeg 9 (min (sq / 8) (sq % 8)) sq occ t) := by
  refine negDir_testBit (rays 5) 9 (min (sq / 8) (sq % 8)) sq occ acc t (by norm_num) hsq
    (fun i h1 h2 => by omega) (rays_def5 sq) (fun i h1 h2 => ?_) ht
  rw [rays_def5]
  have e0 : (sq - i * 9) / 8 = sq / 8 - i := by omega
  have e1 : (sq - i * 9) % 8 = sq % 8 - i := by omega
  rw [e0, e1]
  all_goals congr 1
  all_goals omega

theorem dir6_testBit (sq occ acc t : Nat) (hsq : sq < 64) (ht : t < 64) :
    ((if (rays 6 sq &&& occ) ≠ 0 then
        match Bitboard.msb (rays 6 sq &&& occ) with
        | some b => acc ||| (rays 6 sq &&& bnot64 (rays 6 b))
        | none => acc ||| rays 6 sq
      else acc ||| rays 6 sq).testBit t = true) ↔
      (acc.testBit t = true ∨ reachNeg 1 (sq % 8) sq occ t) := by
  refine negDir_testBit (rays 6) 1 (sq % 8) sq occ acc t (by norm_num) hsq
    (fun i h1 h2 => by omega) (rays_def6 sq) (fun i h1 h2 => ?_) ht
  rw [rays_def6]
  have e0 : (sq - i * 1) % 8 = sq % 8 - i := by omega
  rw [e0]
  all_goals congr 1
  all_goals omega

theorem bishop_attacks_testBit (sq occ t : Nat) (hsq : sq < 64) (ht : t < 64) :
    (bishop_attacks sq occ).testBit t = true ↔
      (reachPos 9 (min (7 - sq / 8) (7 - sq % 8)) sq occ t ∨
       reachPos 7 (min (7 - sq / 8) (sq % 8)) sq occ t ∨
       reachNeg 7 (min (sq / 8) (7 - sq % 8)) sq occ t ∨
       reachNeg 9 (min (sq / 8) (sq % 8)) sq occ t) := by
  simp only [bishop_attacks]
  rw [dir5_testBit sq occ _ t hsq ht, dir3_testBit sq occ _ t hsq ht,
    dir7_testBit sq occ _ t hsq ht, dir1_testBit sq occ _ t hsq ht]
  simp only [Nat.zero_testBit]
  tauto

theorem rook_attacks_testBit (sq occ t : Nat) (hsq : sq < 64) (ht : t < 64) :
    (rook_attacks sq occ).testBit t = true ↔
      (reachPos 8 (7 - sq / 8) sq occ t ∨
       reachPos 1 (7 - sq % 8) sq occ t ∨
       reachNeg 8 (sq / 8) sq occ t ∨
       reachNeg 1 (sq % 8) sq occ t) := by
  simp only [rook_attacks]
  rw [dir6_testBit sq occ _ t hsq ht, dir4_testBit sq occ _ t hsq ht,
    dir2_testBit sq occ _ t hsq ht, dir0_testBit sq occ _ t hsq ht]
  simp only [Nat.zero_testBit]
  tauto

/-- C3: for every square and occupancy, the classical-ray slider lookups
are exactly the blocker-truncated rays: a target square is attacked by the
bishop iff it lies on one of the four diagonal rays of `sq` with every
strictly earlier ray square unoccupied (so the first blocker is included
and every square beyond it excluded, and an empty ray is contained whole),
and likewise for the rook on the four orthogonal rays. -/
theorem C3_slider_attacks (sq occ : Nat) (hsq : sq < 64) : ∀ t, t < 64 →
    (((bishop_attacks sq occ).testBit t = true ↔
      (reachPos 9 (min (7 - sq / 8) (7 - sq % 8)) sq occ t ∨
       reachPos 7 (min (7 - sq / 8) (sq % 8)) sq occ t ∨
       reachNeg 7 (min (sq / 8) (7 - sq % 8)) sq occ t ∨
       reachNeg 9 (min (sq / 8) (sq % 8)) sq occ t)) ∧
     ((rook_attacks sq occ).testBit t = true ↔
      (reachPos 8 (7 - sq / 8) sq occ t ∨
       reachPos 1 (7 - sq % 8) sq occ t ∨
       reachNeg 8 (sq / 8) sq occ t ∨
       reachNeg 1 (sq % 8) sq occ t))) :=
  fun t ht => ⟨bishop_attacks_testBit sq occ t hsq ht, rook_attacks_testBit sq occ t hsq ht⟩

/-- Witness for C3 at a concrete input: from a1 with a single blocker on
a3, the rook reaches a3 (the blocker square itself is included). -/
theorem C3_slider_attacks_witness :
    (rook_attacks 0 (1 <<< 16)).testBit 16 = true :=
  ((C3_slider_attacks 0 (1 <<< 16) (by decide) 16 (by decide)).2).mpr
    (Or.inl ⟨2, by omega, by decide, by decide, fun j h1 h2 => by
      have hj : j = 1 := by omega
      rw [hj]; decide⟩)

theorem land_ne_zero_iff {A B : Nat} (hA : A < 2 ^ 64) :
    (A &&& B ≠ 0) ↔ ∃ s, s < 64 ∧ A.testBit s = true ∧ B.testBit s = true := by
  constructor
  · intro h
    by_contra hno
    push_neg at hno
    apply h
    apply Nat.eq_of_testBit_eq
    intro i
    rw [Nat.zero_testBit, Nat.testBit_and]
    by_cases hi : i < 64
    · cases hAi : A.testBit i with
      | false => rfl
      | true =>
        cases hBi : B.testBit i with
        | false => simp
        | true => exact absurd hBi (by simpa [hAi] using hno i hi)
    · rw [testBit_ge_64_eq_false hA (by omega)]
      rfl
  · rintro ⟨s, hs, hA1, hB1⟩ h0
    have : (A &&& B).testBit s = true := by rw [Nat.testBit_and, hA1, hB1]; rfl
    rw [h0, Nat.zero_testBit] at this
    exact absurd this (by simp)

theorem knight_attacks_spec : ∀ t s : Fin 64,
    (knight_attacks t.val).testBit s.val =
      (([((1 : Int), (2 : Int)), (2, 1), (-1, 2), (-2, 1),
         (1, -2), (2, -1), (-1, -2), (-2, -1)]).any fun d =>
        decide (sqOf (file_of t.val + d.1) (rank_of t.val + d.2) = some s.val)) := by
  decide

theorem king_attacks_spec : ∀ t s : Fin 64,
    (king_attacks t.val).testBit s.val =
      (([((1 : Int), (1 : Int)), (1, 0), (1, -1), (0, 1),
         (0, -1), (-1, 1), (-1, 0), (-1, -1)]).any fun d =>
        decide (sqOf (file_of t.val + d.1) (rank_of t.val + d.2) = some s.val)) := by
  decide

theorem white_pawn_attacks_spec : ∀ t s : Fin 64,
    (white_pawn_attacks t.val).testBit s.val =
      (([((-1 : Int), (1 : Int)), (1, 1)]).any fun d =>
        decide (sqOf (file_of t.val + d.1) (rank_of t.val + d.2) = some s.val)) := by
  decide

theorem black_pawn_attacks_spec : ∀ t s : Fin 64,
    (black_pawn_attacks t.val).testBit s.val =
      (([((-1 : Int), (-1 : Int)), (1, -1)]).any fun d =>
        decide (sqOf (file_of t.val + d.1) (rank_of t.val + d.2) = some s.val)) := by
  decide

theorem knight_attacks_lt (t : Nat) : knight_attacks t < 2 ^ 64 := by
  rw [knight_attacks]
  repeat
    apply lor_lt_two_pow
  all_goals
    first
    | exact land_lt_two_pow shl64_lt_two_pow
    | (apply land_lt_two_pow'
       simp only [Bitboard.NOT_FILE_A, Bitboard.NOT_FILE_H, Bitboard.NOT_FILE_AB,
         Bitboard.NOT_FILE_GH, Bitboard.FILE_A, Bitboard.FILE_H, bnot64, mask64]
       decide)

theorem king_attacks_lt (t : Nat) (ht : t < 64) : king_attacks t < 2 ^ 64 := by
  rw [king_attacks]
  repeat
    apply lor_lt_two_pow
  all_goals
    first
    | exact land_lt_two_pow shl64_lt_two_pow
    | exact shl64_lt_two_pow
    | exact shr_lt_two_pow (one_shl_lt_two_pow ht)
    | (apply land_lt_two_pow'
       simp only [Bitboard.NOT_FILE_A, Bitboard.NOT_FILE_H, Bitboard.FILE_A,
         Bitboard.FILE_H, bnot64, mask64]
       decide)

theorem pawn_attacks_lt (t : Nat) (w : Bool) : pawn_attacks t w < 2 ^ 64 := by
  cases w <;>
    simp only [pawn_attacks, white_pawn_attacks, black_pawn_attacks] <;>
    apply lor_lt_two_pow <;>
    first
    | exact land_lt_two_pow shl64_lt_two_pow
    | (apply land_lt_two_pow'
       simp only [Bitboard.NOT_FILE_A, Bitboard.NOT_FILE_H, Bitboard.FILE_A,
         Bitboard.FILE_H, bnot64, mask64]
       decide)

theorem slide_walk_spec (pos : Position) (c : Color) (k1 k2 : PieceKind) (df dr : Int) :
    ∀ (fuel : Nat) (f r : Int),
      Position.slide_walk pos c k1 k2 f r df dr fuel = true ↔
        ∃ i : Nat, i < fuel ∧
          (∀ j : Nat, j < i → ∃ s, sqOf (f + j * df) (r + j * dr) = some s ∧
            pos.piece_at s = none) ∧
          ∃ s, sqOf (f + i * df) (r + i * dr) = some s ∧
            ∃ pc, pos.piece_at s = some pc ∧ pc.color = c ∧
              (pc.kind = k1 ∨ pc.kind = k2) := by
  intro fuel
  induction fuel with
  | zero =>
    intro f r
    rw [Position.slide_walk]
    simp
  | succ fuel ih =>
    intro f r
    have hz0 : ∀ (g : Int), g + ((0 : Nat) : Int) * df = g := by
      intro g; push_cast; ring
    have hz0r : ∀ (g : Int), g + ((0 : Nat) : Int) * dr = g := by
      intro g; push_cast; ring
    have hshf : ∀ (j : Nat), f + df + (j : Int) * df = f + ((j + 1 : Nat) : Int) * df := by
      intro j; push_cast; ring
    have hshr : ∀ (j : Nat), r + dr + (j : Int) * dr = r + ((j + 1 : Nat) : Int) * dr := by
      intro j; push_cast; ring
    rw [Position.slide_walk]
    rcases hsq : sqOf f r with _ | s
    · constructor
      · intro h; exact absurd h (by simp)
      · rintro ⟨i, hi, hpre, s, hs, hpc⟩
        exfalso
        rcases Nat.eq_zero_or_pos i with hiz | hipos
        · subst hiz
          rw [hz0 f, hz0r r, hsq] at hs
          exact absurd hs (by simp)
        · obtain ⟨s0, hs0, _⟩ := hpre 0 hipos
          rw [hz0 f, hz0r r, hsq] at hs0
          exact absurd hs0 (by simp)
    · show (match pos.piece_at s with
          | some pc => decide (pc.color = c ∧ (pc.kind = k1 ∨ pc.kind = k2))
          | none => Position.slide_walk pos c k1 k2 (f + df) (r + dr) df dr fuel) = true ↔ _
      rcases hpc : pos.piece_at s with _ | pc
      · show Position.slide_walk pos c k1 k2 (f + df) (r + dr) df dr fuel = true ↔ _
        rw [ih]
        constructor
        · rintro ⟨i, hi, hpre, s1, hs1, pc1, hpc1, hcol, hkind⟩
          refine ⟨i + 1, by omega, ?_, s1, ?_, pc1, hpc1, hcol, hkind⟩
          · intro j hj
            rcases Nat.eq_zero_or_pos j with hjz | hjpos
            · subst hjz
              rw [hz0 f, hz0r r, hsq]
              exact ⟨s, rfl, hpc⟩
            · obtain ⟨j1, rfl⟩ := Nat.exists_eq_add_of_lt hjpos
              simp only [Nat.zero_add] at *
              obtain ⟨s2, hs2, hemp⟩ := hpre j1 (by omega)
              rw [hshf j1, hshr j1] at hs2
              exact ⟨s2, hs2, hemp⟩
          · rw [hshf i, hshr i] at hs1
            exact hs1
        · rintro ⟨i, hi, hpre, s1, hs1, pc1, hpc1, hcol, hkind⟩
          rcases Nat.eq_zero_or_pos i with hiz | hipos
          · exfalso
            subst hiz
            rw [hz0 f, hz0r r, hsq] at hs1
            have hss : s = s1 := by simpa using hs1
            subst hss
            rw [hpc] at hpc1
            exact absurd hpc1 (by simp)
          · obtain ⟨i1, rfl⟩ := Nat.exists_eq_add_of_lt hipos
            simp only [Nat.zero_add] at *
            refine ⟨i1, by omega, ?_, s1, ?_, pc1, hpc1, hcol, hkind⟩
            · intro j hj
              obtain ⟨s2, hs2, hemp⟩ := hpre (j + 1) (by omega)
              rw [hshf j, hshr j]
              exact ⟨s2, hs2, hemp⟩
            · rw [hshf i1, hshr i1]
              exact hs1
      · show decide (pc.color = c ∧ (pc.kind = k1 ∨ pc.kind = k2)) = true ↔ _
        constructor
        · intro h
          have hp : pc.color = c ∧ (pc.kind = k1 ∨ pc.kind = k2) := by
            simpa using h
          refine ⟨0, by omega, fun j hj => absurd hj (by omega), s, ?_, pc, hpc, hp.1, hp.2⟩
          rw [hz0 f, hz0r r]
          exact hsq
        · rintro ⟨i, hi, hpre, s1, hs1, pc1, hpc1, hcol, hkind⟩
          rcases Nat.eq_zero_or_pos i with hiz | hipos
          · subst hiz
            rw [hz0 f, hz0r r, hsq] at hs1
            have hss : s = s1 := by simpa using hs1
            subst hss
            rw [hpc] at hpc1
            have hpp : pc = pc1 := by simpa using hpc1
            subst hpp
            simpa using And.intro hcol hkind
          · exfalso
            obtain ⟨s0, hs0, hemp⟩ := hpre 0 hipos
            rw [hz0 f, hz0r r, hsq] at hs0
            have hss : s = s0 := by simpa using hs0
            subst hss
            rw [hpc] at hemp
            exact absurd hemp (by simp)

theorem sqOf_eq_some_iff {f r : Int} {u : Nat} :
    sqOf f r = some u ↔
      (0 ≤ f ∧ f < 8 ∧ 0 ≤ r ∧ r < 8 ∧ (u : Int) = r * 8 + f) := by
  rw [sqOf]
  split
  · rename_i h
    rw [Option.some_inj]
    constructor
    · intro hu
      refine ⟨h.1, h.2.1, h.2.2.1, h.2.2.2, ?_⟩
      omega
    · rintro ⟨_, _, _, _, hu⟩
      omega
  · rename_i h
    constructor
    · intro hc
      exact absurd hc (by simp)
    · rintro ⟨h1, h2, h3, h4, _⟩
      exact absurd ⟨h1, h2, h3, h4⟩ h

theorem piece_testBit_iff {pos : Position} (hco : Coherent pos) {s : Nat}
    (hs : s < 64) (c : Color) (k : PieceKind) :
    ((pos.bitboards.by_piece c k).testBit s = true ↔
      pos.piece_at s = some { color := c, kind := k }) := by
  rw [Position.piece_at, dif_pos hs]
  exact hco.2.2.1 ⟨s, hs⟩ c k

theorem piece_or_testBit_iff {pos : Position} (hco : Coherent pos) {s : Nat}
    (hs : s < 64) (c : Color) (k1 k2 : PieceKind) :
    ((pos.bitboards.by_piece c k1 ||| pos.bitboards.by_piece c k2).testBit s = true ↔
      ∃ pc, pos.piece_at s = some pc ∧ pc.color = c ∧ (pc.kind = k1 ∨ pc.kind = k2)) := by
  rw [Nat.testBit_or, Bool.or_eq_true, piece_testBit_iff hco hs c k1,
    piece_testBit_iff hco hs c k2]
  constructor
  · rintro (h | h)
    · exact ⟨_, h, rfl, Or.inl rfl⟩
    · exact ⟨_, h, rfl, Or.inr rfl⟩
  · rintro ⟨pc, hpc, hcol, hk | hk⟩
    · left
      rw [hpc]
      cases pc
      simp_all
    · right
      rw [hpc]
      cases pc
      simp_all

theorem occupied_testBit_false_iff {pos : Position} (hco : Coherent pos) {s : Nat}
    (hs : s < 64) :
    ((pos.bitboards.occupied).testBit s = false ↔ pos.piece_at s = none) := by
  rw [PieceBitboards.occupied, Nat.testBit_or]
  have hw := hco.2.2.2 ⟨s, hs⟩ Color.White
  have hb := hco.2.2.2 ⟨s, hs⟩ Color.Black
  rw [Position.piece_at, dif_pos hs]
  constructor
  · intro h
    rw [Bool.or_eq_false_iff] at h
    rcases hbd : pos.board ⟨s, hs⟩ with _ | pc
    · rfl
    · exfalso
      cases hc : pc.color
      · have : (pos.bitboards.by_color Color.White).testBit s = true := by
          rw [hw]
          exact ⟨pc.kind, by rw [hbd]; cases pc; simp_all⟩
        rw [this] at h
        exact absurd h.1 (by simp)
      · have : (pos.bitboards.by_color Color.Black).testBit s = true := by
          rw [hb]
          exact ⟨pc.kind, by rw [hbd]; cases pc; simp_all⟩
        rw [this] at h
        exact absurd h.2 (by simp)
  · intro h
    rw [Bool.or_eq_false_iff]
    constructor
    · cases hx : (pos.bitboards.by_color Color.White).testBit s with
      | false => rfl
      | true =>
        obtain ⟨k, hk⟩ := hw.mp hx
        rw [h] at hk
        exact absurd hk (by simp)
    · cases hx : (pos.bitboards.by_color Color.Black).testBit s with
      | false => rfl
      | true =>
        obtain ⟨k, hk⟩ := hb.mp hx
        rw [h] at hk
        exact absurd hk (by simp)

theorem occupied_lt_two_pow {pos : Position} (hco : Coherent pos) :
    pos.bitboards.occupied < 2 ^ 64 :=
  lor_lt_two_pow (hco.2.1 Color.White) (hco.2.1 Color.Black)

theorem leaper_bit_iff {pos : Position} (hco : Coherent pos) {t : Nat} (ht : t < 64)
    (c : Color) (k : PieceKind) (table : Nat → Nat) (dirs : List (Int × Int))
    (hspec : ∀ a s : Fin 64, (table a.val).testBit s.val =
      (dirs.any fun d =>
        decide (sqOf (file_of a.val + d.1) (rank_of a.val + d.2) = some s.val)))
    (htlt : table t < 2 ^ 64) :
    (table t &&& pos.bitboards.by_piece c k ≠ 0) ↔
      ∃ d ∈ dirs, leaperAt pos t c d k := by
  rw [land_ne_zero_iff htlt]
  constructor
  · rintro ⟨s, hs, htab, hpc⟩
    have h1 := hspec ⟨t, ht⟩ ⟨s, hs⟩
    rw [htab] at h1
    have h2 := (List.any_eq_true).mp h1.symm
    obtain ⟨d, hd, hdec⟩ := h2
    rw [decide_eq_true_eq] at hdec
    exact ⟨d, hd, s, hdec, { color := c, kind := k },
      (piece_testBit_iff hco hs c k).mp hpc, rfl, rfl⟩
  · rintro ⟨d, hd, s, hsq, pc, hpc, hcol, hk⟩
    have hs : s < 64 := by
      rw [sqOf_eq_some_iff] at hsq
      omega
    refine ⟨s, hs, ?_, ?_⟩
    · have h1 := hspec ⟨t, ht⟩ ⟨s, hs⟩
      rw [h1]
      apply List.any_eq_true.mpr
      exact ⟨d, hd, by rw [decide_eq_true_eq]; exact hsq⟩
    · apply (piece_testBit_iff hco hs c k).mpr
      rw [hpc]
      cases pc
      simp_all
  
theorem reachPos_iff_slider {pos : Position} (hco : Coherent pos) (c : Color)
    (k1 k2 : PieceKind) {t : Nat} (step L : Nat) (df dr : Int) (ht : t < 64)
    (hstep : 0 < step)
    (hgeo : ∀ k u : Nat, 1 ≤ k →
      (sqOf (file_of t + k * df) (rank_of t + k * dr) = some u ↔
        (k ≤ L ∧ u = t + k * step))) :
    (∃ s, s < 64 ∧ reachPos step L t pos.bitboards.occupied s ∧
      ∃ pc, pos.piece_at s = some pc ∧ pc.color = c ∧
        (pc.kind = k1 ∨ pc.kind = k2)) ↔
      sliderAt pos t c (df, dr) k1 k2 := by
  rw [sliderAt]
  constructor
  · rintro ⟨s, hs64, ⟨i, hi1, hiL, rfl, hpre⟩, hpc⟩
    refine ⟨i, hi1, ?_, t + i * step, (hgeo i _ hi1).mpr ⟨hiL, rfl⟩, hpc⟩
    intro j hj1 hj2
    refine ⟨t + j * step, (hgeo j _ hj1).mpr ⟨by omega, rfl⟩, ?_⟩
    have hjs : j * step ≤ i * step := Nat.mul_le_mul_right step (by omega)
    exact (occupied_testBit_false_iff hco (by omega)).mp (hpre j hj1 hj2)
  · rintro ⟨i, hi1, hpre, s, hsq, hpc⟩
    obtain ⟨hiL, rfl⟩ := (hgeo i s hi1).mp hsq
    have hs64 : t + i * step < 64 := by
      rw [sqOf_eq_some_iff] at hsq
      have := hgeo i (t + i * step) hi1
      omega
    refine ⟨t + i * step, hs64, ⟨i, hi1, hiL, rfl, ?_⟩, hpc⟩
    intro j hj1 hj2
    obtain ⟨s2, hs2, hemp⟩ := hpre j hj1 hj2
    obtain ⟨hjL, rfl⟩ := (hgeo j s2 hj1).mp hs2
    have hjs : j * step ≤ i * step := Nat.mul_le_mul_right step (by omega)
    exact (occupied_testBit_false_iff hco (by omega)).mpr hemp

theorem reachNeg_iff_slider {pos : Position} (hco : Coherent pos) (c : Color)
    (k1 k2 : PieceKind) {t : Nat} (step L : Nat) (df dr : Int) (ht : t < 64)
    (hstep : 0 < step)
    (hsub : ∀ i, 1 ≤ i → i ≤ L → i * step ≤ t)
    (hgeo : ∀ k u : Nat, 1 ≤ k →
      (sqOf (file_of t + k * df) (rank_of t + k * dr) = some u ↔
        (k ≤ L ∧ k * step ≤ t ∧ u = t - k * step))) :
    (∃ s, s < 64 ∧ reachNeg step L t pos.bitboards.occupied s ∧
      ∃ pc, pos.piece_at s = some pc ∧ pc.color = c ∧
        (pc.kind = k1 ∨ pc.kind = k2)) ↔
      sliderAt pos t c (df, dr) k1 k2 := by
  rw [sliderAt]
  constructor
  · rintro ⟨s, hs64, ⟨i, hi1, hiL, rfl, hpre⟩, hpc⟩
    have hisub : i * step ≤ t := hsub i hi1 hiL
    refine ⟨i, hi1, ?_, t - i * step, (hgeo i _ hi1).mpr ⟨hiL, hisub, rfl⟩, hpc⟩
    intro j hj1 hj2
    have hjs : j * step ≤ i * step := Nat.mul_le_mul_right step (by omega)
    refine ⟨t - j * step, (hgeo j _ hj1).mpr ⟨by omega, by omega, rfl⟩, ?_⟩
    exact (occupied_testBit_false_iff hco (by omega)).mp (hpre j hj1 hj2)
  · rintro ⟨i, hi1, hpre, s, hsq, hpc⟩
    obtain ⟨hiL, hisub, rfl⟩ := (hgeo i s hi1).mp hsq
    refine ⟨t - i * step, by omega, ⟨i, hi1, hiL, rfl, ?_⟩, hpc⟩
    intro j hj1 hj2
    obtain ⟨s2, hs2, hemp⟩ := hpre j hj1 hj2
    obtain ⟨hjL, hjsub, rfl⟩ := (hgeo j s2 hj1).mp hs2
    exact (occupied_testBit_false_iff hco (by omega)).mpr hemp

theorem lt_two_pow_64_of_testBit (x : Nat) (h : ∀ i, 64 ≤ i → x.testBit i = false) :
    x < 2 ^ 64 := by
  have hx : x = x % 2 ^ 64 := by
    apply Nat.eq_of_testBit_eq
    intro i
    rw [Nat.testBit_mod_two_pow]
    by_cases hi : i < 64
    · simp [hi]
    · rw [h i (by omega)]
      simp [hi]
  rw [hx]
  exact Nat.mod_lt _ (by norm_num)

theorem posDir_testBit_ge (R : Nat → Nat) (sq occ acc t : Nat)
    (hRlt : R sq < 2 ^ 64) (ht : 64 ≤ t) :
    ((match Bitboard.lsb (R sq &&& occ) with
      | some b => acc ||| (R sq &&& bnot64 (R b))
      | none => acc ||| R sq).testBit t) = acc.testBit t := by
  rcases Bitboard.lsb (R sq &&& occ) with _ | b
  · show (acc ||| R sq).testBit t = _
    rw [Nat.testBit_or, testBit_ge_64_eq_false hRlt ht, Bool.or_false]
  · show (acc ||| (R sq &&& bnot64 (R b))).testBit t = _
    rw [Nat.testBit_or, Nat.testBit_and, testBit_ge_64_eq_false hRlt ht]
    simp

theorem negDir_testBit_ge (R : Nat → Nat) (sq occ acc t : Nat)
    (hRlt : R sq < 2 ^ 64) (ht : 64 ≤ t) :
    ((if (R sq &&& occ) ≠ 0 then
        match Bitboard.msb (R sq &&& occ) with
        | some b => acc ||| (R sq &&& bnot64 (R b))
        | none => acc ||| R sq
      else acc ||| R sq).testBit t) = acc.testBit t := by
  by_cases hz : (R sq &&& occ) = 0
  · rw [if_neg (not_not_intro hz), Nat.testBit_or, testBit_ge_64_eq_false hRlt ht,
      Bool.or_false]
  · rw [if_pos hz]
    rcases Bitboard.msb (R sq &&& occ) with _ | b
    · show (acc ||| R sq).testBit t = _
      rw [Nat.testBit_or, testBit_ge_64_eq_false hRlt ht, Bool.or_false]
    · show (acc ||| (R sq &&& bnot64 (R b))).testBit t = _
      rw [Nat.testBit_or, Nat.testBit_and, testBit_ge_64_eq_false hRlt ht]
      simp

theorem bishop_attacks_lt (sq occ : Nat) (hsq : sq < 64) :
    bishop_attacks sq occ < 2 ^ 64 := by
  apply lt_two_pow_64_of_testBit
  intro i hi
  simp only [bishop_attacks]
  rw [negDir_testBit_ge _ sq occ _ i
      (by rw [rays_def5]; exact rayNeg_lt_two_pow hsq) hi,
    negDir_testBit_ge _ sq occ _ i
      (by rw [rays_def3]; exact rayNeg_lt_two_pow hsq) hi,
    posDir_testBit_ge _ sq occ _ i
      (by rw [rays_def7]; exact rayPos_lt_two_pow (fun k h1 h2 => by omega)) hi,
    posDir_testBit_ge _ sq occ _ i
      (by rw [rays_def1]; exact rayPos_lt_two_pow (fun k h1 h2 => by omega)) hi]
  exact Nat.zero_testBit i

theorem rook_attacks_lt (sq occ : Nat) (hsq : sq < 64) :
    rook_attacks sq occ < 2 ^ 64 := by
  apply lt_two_pow_64_of_testBit
  intro i hi
  simp only [rook_attacks]
  rw [negDir_testBit_ge _ sq occ _ i
      (by rw [rays_def6]; exact rayNeg_lt_two_pow hsq) hi,
    negDir_testBit_ge _ sq occ _ i
      (by rw [rays_def4]; exact rayNeg_lt_two_pow hsq) hi,
    posDir_testBit_ge _ sq occ _ i
      (by rw [rays_def2]; exact rayPos_lt_two_pow (fun k h1 h2 => by omega)) hi,
    posDir_testBit_ge _ sq occ _ i
      (by rw [rays_def0]; exact rayPos_lt_two_pow (fun k h1 h2 => by omega)) hi]
  exact Nat.zero_testBit i

theorem sliderNE_iff {pos : Position} (hco : Coherent pos) (c : Color)
    {t : Nat} (ht : t < 64) :
    (∃ s, s < 64 ∧ reachPos 9 (min (7 - t / 8) (7 - t % 8)) t pos.bitboards.occupied s ∧
      ∃ pc, pos.piece_at s = some pc ∧ pc.color = c ∧
        (pc.kind = PieceKind.Bishop ∨ pc.kind = PieceKind.Queen)) ↔
      sliderAt pos t c ((1 : Int), (1 : Int)) PieceKind.Bishop PieceKind.Queen := by
  refine reachPos_iff_slider hco c PieceKind.Bishop PieceKind.Queen 9 (min (7 - t / 8) (7 - t % 8)) (1) (1) ht (by norm_num) ?_
  intro k u hk
  rw [sqOf_eq_some_iff, file_of, rank_of]
  constructor
  · intro h
    omega
  · intro h
    omega

theorem sliderSE_iff {pos : Position} (hco : Coherent pos) (c : Color)
    {t : Nat} (ht : t < 64) :
    (∃ s, s < 64 ∧ reachNeg 7 (min (t / 8) (7 - t % 8)) t pos.bitboards.occupied s ∧
      ∃ pc, pos.piece_at s = some pc ∧ pc.color = c ∧
        (pc.kind = PieceKind.Bishop ∨ pc.kind = PieceKind.Queen)) ↔
      sliderAt pos t c ((1 : Int), (-1 : Int)) PieceKind.Bishop PieceKind.Queen := by
  refine reachNeg_iff_slider hco c PieceKind.Bishop PieceKind.Queen 7 (min (t / 8) (7 - t % 8)) (1) (-1) ht (by norm_num)
    (fun i h1 h2 => by omega) ?_
  intro k u hk
  rw [sqOf_eq_some_iff, file_of, rank_of]
  constructor
  · intro h
    omega
  · intro h
    omega

theorem sliderNW_iff {pos : Position} (hco : Coherent pos) (c : Color)
    {t : Nat} (ht : t < 64) :
    (∃ s, s < 64 ∧ reachPos 7 (min (7 - t / 8) (t % 8)) t pos.bitboards.occupied s ∧
      ∃ pc, pos.piece_at s = some pc ∧ pc.color = c ∧
        (pc.kind = PieceKind.Bishop ∨ pc.kind = PieceKind.Queen)) ↔
      sliderAt pos t c ((-1 : Int), (1 : Int)) PieceKind.Bishop PieceKind.Queen := by
  refine reachPos_iff_slider hco c PieceKind.Bishop PieceKind.Queen 7 (min (7 - t / 8) (t % 8)) (-1) (1) ht (by norm_num) ?_
  intro k u hk
  rw [sqOf_eq_some_iff, file_of, rank_of]
  constructor
  · intro h
    omega
  · intro h
    omega

theorem sliderSW_iff {pos : Position} (hco : Coherent pos) (c : Color)
    {t : Nat} (ht : t < 64) :
    (∃ s, s < 64 ∧ reachNeg 9 (min (t / 8) (t % 8)) t pos.bitboards.occupied s ∧
      ∃ pc, pos.piece_at s = some pc ∧ pc.color = c ∧
        (pc.kind = PieceKind.Bishop ∨ pc.kind = PieceKind.Queen)) ↔
      sliderAt pos t c ((-1 : Int), (-1 : Int)) PieceKind.Bishop PieceKind.Queen := by
  refine reachNeg_iff_slider hco c PieceKind.Bishop PieceKind.Queen 9 (min (t / 8) (t % 8)) (-1) (-1) ht (by norm_num)
    (fun i h1 h2 => by omega) ?_
  intro k u hk
  rw [sqOf_eq_some_iff, file_of, rank_of]
  constructor
  · intro h
    omega
  · intro h
    omega

theorem sliderN_iff {pos : Position} (hco : Coherent pos) (c : Color)
    {t : Nat} (ht : t < 64) :
    (∃ s, s < 64 ∧ reachPos 8 (7 - t / 8) t pos.bitboards.occupied s ∧
      ∃ pc, pos.piece_at s = some pc ∧ pc.color = c ∧
        (pc.kind = PieceKind.Rook ∨ pc.kind = PieceKind.Queen)) ↔
      sliderAt pos t c ((0 : Int), (1 : Int)) PieceKind.Rook PieceKind.Queen := by
  refine reachPos_iff_slider hco c PieceKind.Rook PieceKind.Queen 8 (7 - t / 8) (0) (1) ht (by norm_num) ?_
  intro k u hk
  rw [sqOf_eq_some_iff, file_of, rank_of]
  constructor
  · intro h
    omega
  · intro h
    omega

theorem sliderE_iff {pos : Position} (hco : Coherent pos) (c : Color)
    {t : Nat} (ht : t < 64) :
    (∃ s, s < 64 ∧ reachPos 1 (7 - t % 8) t pos.bitboards.occupied s ∧
      ∃ pc, pos.piece_at s = some pc ∧ pc.color = c ∧
        (pc.kind = PieceKind.Rook ∨ pc.kind = PieceKind.Queen)) ↔
      sliderAt pos t c ((1 : Int), (0 : Int)) PieceKind.Rook PieceKind.Queen := by
  refine reachPos_iff_slider hco c PieceKind.Rook PieceKind.Queen 1 (7 - t % 8) (1) (0) ht (by norm_num) ?_
  intro k u hk
  rw [sqOf_eq_some_iff, file_of, rank_of]
  constructor
  · intro h
    omega
  · intro h
    omega

theorem sliderS_iff {pos : Position} (hco : Coherent pos) (c : Color)
    {t : Nat} (ht : t < 64) :
    (∃ s, s < 64 ∧ reachNeg 8 (t / 8) t pos.bitboards.occupied s ∧
      ∃ pc, pos.piece_at s = some pc ∧ pc.color = c ∧
        (pc.kind = PieceKind.Rook ∨ pc.kind = PieceKind.Queen)) ↔
      sliderAt pos t c ((0 : Int), (-1 : Int)) PieceKind.Rook PieceKind.Queen := by
  refine reachNeg_iff_slider hco c PieceKind.Rook PieceKind.Queen 8 (t / 8) (0) (-1) ht (by norm_num)
    (fun i h1 h2 => by omega) ?_
  intro k u hk
  rw [sqOf_eq_some_iff, file_of, rank_of]
  constructor
  · intro h
    omega
  · intro h
    omega

theorem sliderW_iff {pos : Position} (hco : Coherent pos) (c : Color)
    {t : Nat} (ht : t < 64) :
    (∃ s, s < 64 ∧ reachNeg 1 (t % 8) t pos.bitboards.occupied s ∧
      ∃ pc, pos.piece_at s = some pc ∧ pc.color = c ∧
        (pc.kind = PieceKind.Rook ∨ pc.kind = PieceKind.Queen)) ↔
      sliderAt pos t c ((-1 : Int), (0 : Int)) PieceKind.Rook PieceKind.Queen := by
  refine reachNeg_iff_slider hco c PieceKind.Rook PieceKind.Queen 1 (t % 8) (-1) (0) ht (by norm_num)
    (fun i h1 h2 => by omega) ?_
  intro k u hk
  rw [sqOf_eq_some_iff, file_of, rank_of]
  constructor
  · intro h
    omega
  · intro h
    omega

theorem slide8_iff (pos : Position) (c : Color) (k1 k2 : PieceKind) (t : Nat)
    (df dr : Int)
    (hbound : ∀ (i u : Nat),
      sqOf (file_of t + (i : Int) * df) (rank_of t + (i : Int) * dr) = some u →
        i ≤ 7) :
    (Position.slide_walk pos c k1 k2 (file_of t + df) (rank_of t + dr) df dr 8 = true) ↔
      sliderAt pos t c (df, dr) k1 k2 := by
  rw [slide_walk_spec, sliderAt]
  have hsh : ∀ (j : Nat),
      file_of t + df + (j : Int) * df = file_of t + ((j + 1 : Nat) : Int) * df := by
    intro j; push_cast; ring
  have hshr : ∀ (j : Nat),
      rank_of t + dr + (j : Int) * dr = rank_of t + ((j + 1 : Nat) : Int) * dr := by
    intro j; push_cast; ring
  constructor
  · rintro ⟨i, hi8, hpre, s, hs, hpc⟩
    rw [hsh i, hshr i] at hs
    refine ⟨i + 1, by omega, ?_, s, hs, hpc⟩
    intro j hj1 hj2
    obtain ⟨j1, rfl⟩ : ∃ j1, j = j1 + 1 := ⟨j - 1, by omega⟩
    obtain ⟨s2, hs2, hemp⟩ := hpre j1 (by omega)
    rw [hsh j1, hshr j1] at hs2
    exact ⟨s2, hs2, hemp⟩
  · rintro ⟨i, hi1, hpre, s, hs, hpc⟩
    obtain ⟨i1, rfl⟩ : ∃ i1, i = i1 + 1 := ⟨i - 1, by omega⟩
    refine ⟨i1, by have := hbound (i1 + 1) s hs; omega, ?_, s, ?_, hpc⟩
    · intro j hj
      obtain ⟨s2, hs2, hemp⟩ := hpre (j + 1) (by omega) (by omega)
      rw [hsh j, hshr j]
      exact ⟨s2, hs2, hemp⟩
    · rw [hsh i1, hshr i1]
      exact hs

theorem occBy_iff (pos : Position) (c : Color) (t : Nat) (d1 d2 : Int)
    (k : PieceKind) :
    ((match sqOf (file_of t + d1) (rank_of t + d2) with
      | some s =>
        match pos.piece_at s with
        | some pc => decide (pc.color = c ∧ pc.kind = k)
        | none => false
      | none => false) = true) ↔ leaperAt pos t c (d1, d2) k := by
  rw [leaperAt]
  rcases hsq : sqOf (file_of t + d1) (rank_of t + d2) with _ | s
  · constructor
    · intro h
      exact absurd h (by simp)
    · rintro ⟨s, hs, _⟩
      exact absurd hs (by simp)
  · show (match pos.piece_at s with
      | some pc => decide (pc.color = c ∧ pc.kind = k)
      | none => false) = true ↔ _
    rcases hpc : pos.piece_at s with _ | pc
    · constructor
      · intro h
        exact absurd h (by simp)
      · rintro ⟨s2, hs2, pc2, hpc2, _⟩
        have hss : s = s2 := by simpa using hs2
        subst hss
        rw [hpc] at hpc2
        exact absurd hpc2 (by simp)
    · show decide (pc.color = c ∧ pc.kind = k) = true ↔ _
      rw [decide_eq_true_eq]
      constructor
      · rintro ⟨hcol, hk⟩
        exact ⟨s, rfl, pc, hpc, hcol, hk⟩
      · rintro ⟨s2, hs2, pc2, hpc2, hcol, hk⟩
        have hss : s = s2 := by simpa using hs2
        subst hss
        rw [hpc] at hpc2
        have hpp : pc = pc2 := by simpa using hpc2
        subst hpp
        exact ⟨hcol, hk⟩

theorem bishop_bit_iff {pos : Position} (hco : Coherent pos) (c : Color)
    {t : Nat} (ht : t < 64) :
    (bishop_attacks t pos.bitboards.occupied &&&
      (pos.bitboards.by_piece c PieceKind.Bishop |||
        pos.bitboards.by_piece c PieceKind.Queen) ≠ 0) ↔
      ∃ d ∈ diagDirs, sliderAt pos t c d PieceKind.Bishop PieceKind.Queen := by
  rw [land_ne_zero_iff (bishop_attacks_lt t _ ht)]
  constructor
  · rintro ⟨s, hs, hbit, hpc⟩
    rw [bishop_attacks_testBit t _ s ht hs] at hbit
    have hpk := (piece_or_testBit_iff hco hs c _ _).mp hpc
    rcases hbit with h | h | h | h
    · exact ⟨(1, 1), by simp [diagDirs], (sliderNE_iff hco c ht).mp ⟨s, hs, h, hpk⟩⟩
    · exact ⟨(-1, 1), by simp [diagDirs], (sliderNW_iff hco c ht).mp ⟨s, hs, h, hpk⟩⟩
    · exact ⟨(1, -1), by simp [diagDirs], (sliderSE_iff hco c ht).mp ⟨s, hs, h, hpk⟩⟩
    · exact ⟨(-1, -1), by simp [diagDirs], (sliderSW_iff hco c ht).mp ⟨s, hs, h, hpk⟩⟩
  · rintro ⟨d, hd, hslide⟩
    simp only [diagDirs, List.mem_cons, List.not_mem_nil, or_false] at hd
    have assemble : ∀ s, s < 64 →
        (bishop_attacks t pos.bitboards.occupied).testBit s = true →
        (∃ pc, pos.piece_at s = some pc ∧ pc.color = c ∧
          (pc.kind = PieceKind.Bishop ∨ pc.kind = PieceKind.Queen)) →
        ∃ s, s < 64 ∧
          (bishop_attacks t pos.bitboards.occupied).testBit s = true ∧
          ((pos.bitboards.by_piece c PieceKind.Bishop |||
            pos.bitboards.by_piece c PieceKind.Queen)).testBit s = true := by
      intro s hs hbit hpk
      exact ⟨s, hs, hbit, (piece_or_testBit_iff hco hs c _ _).mpr hpk⟩
    rcases hd with rfl | rfl | rfl | rfl
    · obtain ⟨s, hs, hreach, hpk⟩ := (sliderNE_iff hco c ht).mpr hslide
      exact assemble s hs
        (by rw [bishop_attacks_testBit t _ s ht hs]; exact Or.inl hreach) hpk
    · obtain ⟨s, hs, hreach, hpk⟩ := (sliderSE_iff hco c ht).mpr hslide
      exact assemble s hs
        (by rw [bishop_attacks_testBit t _ s ht hs]; exact Or.inr (Or.inr (Or.inl hreach))) hpk
    · obtain ⟨s, hs, hreach, hpk⟩ := (sliderNW_iff hco c ht).mpr hslide
      exact assemble s hs
        (by rw [bishop_attacks_testBit t _ s ht hs]; exact Or.inr (Or.inl hreach)) hpk
    · obtain ⟨s, hs, hreach, hpk⟩ := (sliderSW_iff hco c ht).mpr hslide
      exact assemble s hs
        (by rw [bishop_attacks_testBit t _ s ht hs]; exact Or.inr (Or.inr (Or.inr hreach))) hpk

theorem rook_bit_iff {pos : Position} (hco : Coherent pos) (c : Color)
    {t : Nat} (ht : t < 64) :
    (rook_attacks t pos.bitboards.occupied &&&
      (pos.bitboards.by_piece c PieceKind.Rook |||
        pos.bitboards.by_piece c PieceKind.Queen) ≠ 0) ↔
      ∃ d ∈ orthoDirs, sliderAt pos t c d PieceKind.Rook PieceKind.Queen := by
  rw [land_ne_zero_iff (rook_attacks_lt t _ ht)]
  constructor
  · rintro ⟨s, hs, hbit, hpc⟩
    rw [rook_attacks_testBit t _ s ht hs] at hbit
    have hpk := (piece_or_testBit_iff hco hs c _ _).mp hpc
    rcases hbit with h | h | h | h
    · exact ⟨(0, 1), by simp [orthoDirs], (sliderN_iff hco c ht).mp ⟨s, hs, h, hpk⟩⟩
    · exact ⟨(1, 0), by simp [orthoDirs], (sliderE_iff hco c ht).mp ⟨s, hs, h, hpk⟩⟩
    · exact ⟨(0, -1), by simp [orthoDirs], (sliderS_iff hco c ht).mp ⟨s, hs, h, hpk⟩⟩
    · exact ⟨(-1, 0), by simp [orthoDirs], (sliderW_iff hco c ht).mp ⟨s, hs, h, hpk⟩⟩
  · rintro ⟨d, hd, hslide⟩
    simp only [orthoDirs, List.mem_cons, List.not_mem_nil, or_false] at hd
    have assemble : ∀ s, s < 64 →
        (rook_attacks t pos.bitboards.occupied).testBit s = true →
        (∃ pc, pos.piece_at s = some pc ∧ pc.color = c ∧
          (pc.kind = PieceKind.Rook ∨ pc.kind = PieceKind.Queen)) →
        ∃ s, s < 64 ∧
          (rook_attacks t pos.bitboards.occupied).testBit s = true ∧
          ((pos.bitboards.by_piece c PieceKind.Rook |||
            pos.bitboards.by_piece c PieceKind.Queen)).testBit s = true := by
      intro s hs hbit hpk
      exact ⟨s, hs, hbit, (piece_or_testBit_iff hco hs c _ _).mpr hpk⟩
    rcases hd with rfl | rfl | rfl | rfl
    · obtain ⟨s, hs, hreach, hpk⟩ := (sliderE_iff hco c ht).mpr hslide
      exact assemble s hs
        (by rw [rook_attacks_testBit t _ s ht hs]; exact Or.inr (Or.inl hreach)) hpk
    · obtain ⟨s, hs, hreach, hpk⟩ := (sliderW_iff hco c ht).mpr hslide
      exact assemble s hs
        (by rw [rook_attacks_testBit t _ s ht hs]; exact Or.inr (Or.inr (Or.inr hreach))) hpk
    · obtain ⟨s, hs, hreach, hpk⟩ := (sliderN_iff hco c ht).mpr hslide
      exact assemble s hs
        (by rw [rook_attacks_testBit t _ s ht hs]; exact Or.inl hreach) hpk
    · obtain ⟨s, hs, hreach, hpk⟩ := (sliderS_iff hco c ht).mpr hslide
      exact assemble s hs
        (by rw [rook_attacks_testBit t _ s ht hs]; exact Or.inr (Or.inr (Or.inl hreach))) hpk

theorem pawn_bit_iff {pos : Position} (hco : Coherent pos) (c : Color)
    {t : Nat} (ht : t < 64) :
    (pawn_attacks t (decide ¬(c = Color.White)) &&&
        pos.bitboards.by_piece c PieceKind.Pawn ≠ 0) ↔
      ∃ d ∈ pawnDirs c, leaperAt pos t c d PieceKind.Pawn := by
  cases c
  · have hb : (decide ¬(Color.White = Color.White)) = false := by decide
    rw [hb]
    have hp : pawn_attacks t false = black_pawn_attacks t := rfl
    rw [hp]
    exact leaper_bit_iff hco ht Color.White PieceKind.Pawn black_pawn_attacks
      (pawnDirs Color.White)
      (fun a s => by
        have hd : pawnDirs Color.White = [((-1 : Int), (-1 : Int)), (1, -1)] := rfl
        rw [hd]
        exact black_pawn_attacks_spec a s)
      (by
        have := pawn_attacks_lt t false
        rwa [hp] at this)
  · have hb : (decide ¬(Color.Black = Color.White)) = true := by decide
    rw [hb]
    have hp : pawn_attacks t true = white_pawn_attacks t := rfl
    rw [hp]
    exact leaper_bit_iff hco ht Color.Black PieceKind.Pawn white_pawn_attacks
      (pawnDirs Color.Black)
      (fun a s => by
        have hd : pawnDirs Color.Black = [((-1 : Int), (1 : Int)), (1, 1)] := rfl
        rw [hd]
        exact white_pawn_attacks_spec a s)
      (by
        have := pawn_attacks_lt t true
        rwa [hp] at this)

theorem knight_bit_iff {pos : Position} (hco : Coherent pos) (c : Color)
    {t : Nat} (ht : t < 64) :
    (knight_attacks t &&& pos.bitboards.by_piece c PieceKind.Knight ≠ 0) ↔
      ∃ d ∈ knightDirs, leaperAt pos t c d PieceKind.Knight :=
  leaper_bit_iff hco ht c PieceKind.Knight knight_attacks knightDirs
    (fun a s => by
      have hd : knightDirs = [((1 : Int), (2 : Int)), (2, 1), (-1, 2), (-2, 1),
          (1, -2), (2, -1), (-1, -2), (-2, -1)] := rfl
      rw [hd]
      exact knight_attacks_spec a s)
    (knight_attacks_lt t)

theorem king_bit_iff {pos : Position} (hco : Coherent pos) (c : Color)
    {t : Nat} (ht : t < 64) :
    (king_attacks t &&& pos.bitboards.by_piece c PieceKind.King ≠ 0) ↔
      ∃ d ∈ kingDirs, leaperAt pos t c d PieceKind.King :=
  leaper_bit_iff hco ht c PieceKind.King king_attacks kingDirs
    (fun a s => by
      have hd : kingDirs = [((1 : Int), (1 : Int)), (1, 0), (1, -1), (0, 1),
          (0, -1), (-1, 1), (-1, 0), (-1, -1)] := rfl
      rw [hd]
      exact king_attacks_spec a s)
    (king_attacks_lt t ht)

theorem bit_attacked_iff {pos : Position} (hco : Coherent pos) (c : Color)
    {t : Nat} (ht : t < 64) :
    (Position.is_square_attacked pos t c = true) ↔ attackedSpec pos t c := by
  rw [attackedSpec]
  simp only [Position.is_square_attacked, PieceBitboards.pieces]
  split_ifs with h1 h2 h3 h4 h5
  · exact iff_of_true rfl (Or.inl ((pawn_bit_iff hco c ht).mp h1))
  · exact iff_of_true rfl (Or.inr (Or.inl ((knight_bit_iff hco c ht).mp h2)))
  · exact iff_of_true rfl (Or.inr (Or.inr (Or.inl ((king_bit_iff hco c ht).mp h3))))
  · exact iff_of_true rfl
      (Or.inr (Or.inr (Or.inr (Or.inl ((bishop_bit_iff hco c ht).mp h4)))))
  · exact iff_of_true rfl
      (Or.inr (Or.inr (Or.inr (Or.inr ((rook_bit_iff hco c ht).mp h5)))))
  · refine iff_of_false (by simp) ?_
    rintro (h | h | h | h | h)
    · exact h1 ((pawn_bit_iff hco c ht).mpr h)
    · exact h2 ((knight_bit_iff hco c ht).mpr h)
    · exact h3 ((king_bit_iff hco c ht).mpr h)
    · exact h4 ((bishop_bit_iff hco c ht).mpr h)
    · exact h5 ((rook_bit_iff hco c ht).mpr h)

set_option maxHeartbeats 4000000 in
theorem mailbox_attacked_iff (pos : Position) (c : Color) (t : Nat) (ht : t < 64) :
    (Position.is_square_attacked_mailbox pos t c = true) ↔ attackedSpec pos t c := by
  rw [attackedSpec]
  have hb1 : ∀ (i u : Nat),
      sqOf (file_of t + (i : Int) * 1) (rank_of t + (i : Int) * 1) = some u → i ≤ 7 := by
    intro i u h
    rw [sqOf_eq_some_iff] at h
    rw [file_of, rank_of] at h
    omega
  have hb2 : ∀ (i u : Nat),
      sqOf (file_of t + (i : Int) * 1) (rank_of t + (i : Int) * -1) = some u → i ≤ 7 := by
    intro i u h
    rw [sqOf_eq_some_iff] at h
    rw [file_of, rank_of] at h
    omega
  have hb3 : ∀ (i u : Nat),
      sqOf (file_of t + (i : Int) * -1) (rank_of t + (i : Int) * 1) = some u → i ≤ 7 := by
    intro i u h
    rw [sqOf_eq_some_iff] at h
    rw [file_of, rank_of] at h
    omega
  have hb4 : ∀ (i u : Nat),
      sqOf (file_of t + (i : Int) * -1) (rank_of t + (i : Int) * -1) = some u → i ≤ 7 := by
    intro i u h
    rw [sqOf_eq_some_iff] at h
    rw [file_of, rank_of] at h
    omega
  have hb5 : ∀ (i u : Nat),
      sqOf (file_of t + (i : Int) * 1) (rank_of t + (i : Int) * 0) = some u → i ≤ 7 := by
    intro i u h
    rw [sqOf_eq_some_iff] at h
    rw [file_of, rank_of] at h
    omega
  have hb6 : ∀ (i u : Nat),
      sqOf (file_of t + (i : Int) * -1) (rank_of t + (i : Int) * 0) = some u → i ≤ 7 := by
    intro i u h
    rw [sqOf_eq_some_iff] at h
    rw [file_of, rank_of] at h
    omega
  have hb7 : ∀ (i u : Nat),
      sqOf (file_of t + (i : Int) * 0) (rank_of t + (i : Int) * 1) = some u → i ≤ 7 := by
    intro i u h
    rw [sqOf_eq_some_iff] at h
    rw [file_of, rank_of] at h
    omega
  have hb8 : ∀ (i u : Nat),
      sqOf (file_of t + (i : Int) * 0) (rank_of t + (i : Int) * -1) = some u → i ≤ 7 := by
    intro i u h
    rw [sqOf_eq_some_iff] at h
    rw [file_of, rank_of] at h
    omega
  cases c <;>
    (simp only [Position.is_square_attacked_mailbox, Bool.or_eq_true, List.any_eq_true,
       List.mem_cons, List.not_mem_nil, exists_eq_or_imp, false_and, exists_false,
       exists_eq_left, or_false, pawnDirs, knightDirs, kingDirs, diagDirs, orthoDirs]
     simp only [occBy_iff]
     rw [slide8_iff pos _ _ _ t 1 1 hb1, slide8_iff pos _ _ _ t 1 (-1) hb2,
       slide8_iff pos _ _ _ t (-1) 1 hb3, slide8_iff pos _ _ _ t (-1) (-1) hb4,
       slide8_iff pos _ _ _ t 1 0 hb5, slide8_iff pos _ _ _ t (-1) 0 hb6,
       slide8_iff pos _ _ _ t 0 1 hb7, slide8_iff pos _ _ _ t 0 (-1) hb8]
     simp only [or_assoc])

/-- C10: on every coherent position the bitboard attack detector agrees
with the legacy mailbox reference implementation for every target square
and attacking color. -/
theorem C10_attacked_refinement (pos : Position) (hco : Coherent pos)
    (t : Nat) (ht : t < 64) (c : Color) :
    Position.is_square_attacked pos t c =
      Position.is_square_attacked_mailbox pos t c := by
  have h1 := bit_attacked_iff hco c ht
  have h2 := mailbox_attacked_iff pos c t ht
  cases ha : Position.is_square_attacked pos t c <;>
    cases hb : Position.is_square_attacked_mailbox pos t c
  · rfl
  · rw [ha] at h1
    rw [hb] at h2
    exact absurd (h1.mpr (h2.mp rfl)) (by simp)
  · rw [ha] at h1
    rw [hb] at h2
    exact absurd (h2.mpr (h1.mp rfl)) (by simp)
  · rfl

/-- Witness for C10 at a concrete coherent position. -/
theorem C10_attacked_refinement_witness :
    Position.is_square_attacked Position.startposBase 28 Color.White =
      Position.is_square_attacked_mailbox Position.startposBase 28 Color.White :=
  C10_attacked_refinement Position.startposBase (by decide) 28 (by decide) Color.White

end Chess
